import Mathlib

/-!
Verification of the multi-backend LLM completion client of
`epic-awesome-gamer` against its natural-language specification.

The development shallowly embeds the relevant Python sources:
  - `app/llm/url.py`    (join_url, _path_segments, has_v1beta, has_v1beta_openai)
  - `app/llm/endpoints.py` (the endpoint resolvers)
  - `app/llm/http.py`   (response_json_checked)
  - `app/llm/provider.py` (_extract_first_json, _extract_xy_pairs,
    _salvage_from_text, _normalize_for_schema, and the transport-level
    downgrade-retry of generate_with_images)
together with the parts of the Python runtime those functions lean on:
`json.loads` / `json.dumps` (restricted to the JSON fragment without
floating-point numbers, which is the fragment the structured-output
schemas inhabit), `urllib.parse.urlsplit` / `urlunsplit`,
`posixpath.join`, and `str.strip` / `str.lower`.

Strings are modelled as `List Char` internally; Python `str` values at
the API boundary are Lean `String`s.
-/
/-! ## Python-style character classes and string helpers -/
/-- Whitespace stripped by Python `str.strip()` with no arguments
(ASCII subset; the exotic Unicode space characters are not modelled). -/
def pyWsChar (c : Char) : Bool :=
  c = ' ' || c = '\t' || c = '\n' || c = '\r' || c = '\x0b' || c = '\x0c'

/-- Python `str.lstrip()`. -/
def pyLStrip (s : List Char) : List Char := s.dropWhile pyWsChar

/-- Python `str.rstrip()`. -/
def pyRStrip (s : List Char) : List Char := (s.reverse.dropWhile pyWsChar).reverse

/-- Python `str.strip()`. -/
def pyStrip (s : List Char) : List Char := pyRStrip (pyLStrip s)

/-- Python `str.strip(chars)` for a single-character set:
strip the character `c` from both ends. -/
def pyStripChar (c : Char) (s : List Char) : List Char :=
  ((s.dropWhile (· = c)).reverse.dropWhile (· = c)).reverse

/-- ASCII lower-casing, as Python `str.lower()` acts on ASCII text
(the only text the claims feed it). -/
def asciiLower (c : Char) : Char :=
  if 'A' ≤ c ∧ c ≤ 'Z' then Char.ofNat (c.toNat + 32) else c

/-- Decides whether `needle` occurs as a contiguous substring of `hay`,
modelling Python's `needle in hay` on strings. -/
def containsSub (needle : List Char) : List Char → Bool
  | [] => needle = []
  | c :: rest => needle.isPrefixOf (c :: rest) || containsSub needle rest

/-- First index of a character satisfying `p`, as `str.find` (`none` = -1). -/
def idxOfP (p : Char → Bool) : List Char → Option Nat
  | [] => none
  | c :: rest =>
    if p c then some 0 else (idxOfP p rest).map (· + 1)

/-! ## The JSON data model

`JsonV` models the Python values `json.loads` can return, minus
floating-point numbers: the structured-output schemas of the repository
carry only strings, integers, lists and objects, and floating point is
outside the shallow embedding.  Objects are association lists in
insertion order, which is how Python `dict`s iterate; the parser below
collapses duplicate keys exactly as `dict` assignment does. -/
inductive JsonV where
  | null
  | bool (b : Bool)
  | num (n : Int)
  | str (s : String)
  | arr (elems : List JsonV)
  | obj (fields : List (String × JsonV))

/-! ## Serialization (`json.dumps` with default separators) -/
/-- Decimal digit character for `d < 10`. -/
def digitChar (d : Nat) : Char := Char.ofNat (48 + d)

/-- Decimal digits of a natural number, most significant first. -/
def natDigits (n : Nat) : List Char :=
  if _h : n < 10 then [digitChar n]
  else natDigits (n / 10) ++ [digitChar (n % 10)]
  termination_by n
  decreasing_by
    exact Nat.div_lt_self (by omega) (by omega)

/-- Python `repr` of an integer, as `json.dumps` prints it. -/
def serInt (n : Int) : List Char :=
  if n < 0 then '-' :: natDigits n.natAbs else natDigits n.natAbs

/-- Serialization of one character inside a JSON string, following
`json.dumps` (`ensure_ascii=False`): the two-character escapes for
quote, backslash and the common control characters, `\u00XX` for the
remaining control characters, and the character itself otherwise. -/
def serStrChar (c : Char) : List Char :=
  if c = '"' then ['\\', '"']
  else if c = '\\' then ['\\', '\\']
  else if c = '\n' then ['\\', 'n']
  else if c = '\t' then ['\\', 't']
  else if c = '\r' then ['\\', 'r']
  else if c = '\x08' then ['\\', 'b']
  else if c = '\x0c' then ['\\', 'f']
  else if c.toNat < 0x20 then
    ['\\', 'u', '0', '0', digitChar (c.toNat / 16),
      if c.toNat % 16 < 10 then digitChar (c.toNat % 16)
      else Char.ofNat (97 + c.toNat % 16 - 10)]
  else [c]

/-- Serialization of a JSON string value, quotes included. -/
def serStr (s : String) : List Char :=
  '"' :: s.data.flatMap serStrChar ++ ['"']

mutual

/-- Model of `json.dumps` with the default separators
(`", "` between items, `": "` after keys). -/
def serV : JsonV → List Char
  | .null => "null".data
  | .bool true => "true".data
  | .bool false => "false".data
  | .num n => serInt n
  | .str s => serStr s
  | .arr es => '[' :: serArrItems es ++ [']']
  | .obj kvs => '{' :: serObjItems kvs ++ ['}']

/-- Comma-separated serialization of array elements. -/
def serArrItems : List JsonV → List Char
  | [] => []
  | [v] => serV v
  | v :: w :: rest => serV v ++ ',' :: ' ' :: serArrItems (w :: rest)

/-- Comma-separated serialization of object fields. -/
def serObjItems : List (String × JsonV) → List Char
  | [] => []
  | [(k, v)] => serStr k ++ ':' :: ' ' :: serV v
  | (k, v) :: kv :: rest =>
    serStr k ++ ':' :: ' ' :: serV v ++ ',' :: ' ' :: serObjItems (kv :: rest)

end

/-- The string `json.dumps` produces for a value. -/
def jdumps (v : JsonV) : String := ⟨serV v⟩

/-! ## Parsing (`json.loads`)

A fuel-indexed recursive-descent reading of CPython's `json` scanner,
restricted as `JsonV` is: a number with a fractional part or an
exponent makes the parse fail instead of producing a float, and the
`NaN`/`Infinity` extensions and surrogate-pair `\u` escapes are not
modelled.  Everything else follows the scanner: strict rejection of raw
control characters inside strings, no trailing commas, whitespace is
space, tab, newline and carriage return. -/
/-- JSON whitespace, as the scanner's `_w` skips it. -/
def jsonWs (c : Char) : Bool :=
  c = ' ' || c = '\t' || c = '\n' || c = '\r'

/-- Skip JSON whitespace. -/
def skipWs (s : List Char) : List Char := s.dropWhile jsonWs

/-- Decimal digit test. -/
def isDigitC (c : Char) : Bool := '0' ≤ c && c ≤ '9'

/-- Value of a decimal digit character. -/
def digVal (c : Char) : Nat := c.toNat - 48

/-- Greedy digit accumulation with an accumulator. -/
def readDigits : List Char → Nat → Nat × List Char
  | [], acc => (acc, [])
  | c :: rest, acc =>
    if isDigitC c then readDigits rest (acc * 10 + digVal c) else (acc, c :: rest)

/-- Parse the integer part of a JSON number: `0`, or a nonzero digit
followed by more digits (the grammar forbids leading zeros). -/
def parseNatPart : List Char → Option (Nat × List Char)
  | [] => none
  | c :: rest =>
    if c = '0' then some (0, rest)
    else if isDigitC c then some (readDigits rest (digVal c))
    else none

/-- Unsigned integer token: integer part, then a fractional part or
exponent makes the whole parse fail, standing in for the unmodelled
float result. -/
def parseIntCore (t : List Char) : Option (Nat × List Char) :=
  match parseNatPart t with
  | none => none
  | some (n, rest) =>
    match rest with
    | [] => some (n, [])
    | c :: _ =>
      if c = '.' || c = 'e' || c = 'E' then none else some (n, rest)

/-- Parse a JSON integer with an optional leading minus sign. -/
def parseIntTok (s : List Char) : Option (Int × List Char) :=
  match s with
  | '-' :: rest => (parseIntCore rest).map (fun p => (-(p.1 : Int), p.2))
  | _ => (parseIntCore s).map (fun p => ((p.1 : Int), p.2))

/-- Value of a hexadecimal digit character. -/
def hexVal (c : Char) : Option Nat :=
  if '0' ≤ c ∧ c ≤ '9' then some (c.toNat - 48)
  else if 'a' ≤ c ∧ c ≤ 'f' then some (c.toNat - 97 + 10)
  else if 'A' ≤ c ∧ c ≤ 'F' then some (c.toNat - 65 + 10)
  else none

mutual

/-- Parse the body of a JSON string after the opening quote, returning
the decoded characters and the input after the closing quote.  Raw
control characters are rejected (`strict=True`). -/
def parseStringBody : List Char → Option (List Char × List Char)
  | [] => none
  | c :: rest =>
    if c = '"' then some ([], rest)
    else if c = '\\' then parseEsc rest
    else if c.toNat < 0x20 then none
    else (parseStringBody rest).map (fun p => (c :: p.1, p.2))
termination_by structural s => s

/-- Decode one backslash escape; `\u` escapes decode a single scalar
value, with surrogate halves unmodelled. -/
def parseEsc : List Char → Option (List Char × List Char)
  | [] => none
  | e :: r =>
    if e = '"' then (parseStringBody r).map (fun p => ('"' :: p.1, p.2))
    else if e = '\\' then (parseStringBody r).map (fun p => ('\\' :: p.1, p.2))
    else if e = '/' then (parseStringBody r).map (fun p => ('/' :: p.1, p.2))
    else if e = 'b' then (parseStringBody r).map (fun p => ('\x08' :: p.1, p.2))
    else if e = 'f' then (parseStringBody r).map (fun p => ('\x0c' :: p.1, p.2))
    else if e = 'n' then (parseStringBody r).map (fun p => ('\n' :: p.1, p.2))
    else if e = 'r' then (parseStringBody r).map (fun p => ('\r' :: p.1, p.2))
    else if e = 't' then (parseStringBody r).map (fun p => ('\t' :: p.1, p.2))
    else if e = 'u' then
      match r with
      | h1 :: h2 :: h3 :: h4 :: r2 =>
        match hexVal h1, hexVal h2, hexVal h3, hexVal h4 with
        | some a, some b, some c, some d =>
          if 0xD800 ≤ ((a * 16 + b) * 16 + c) * 16 + d ∧
              ((a * 16 + b) * 16 + c) * 16 + d ≤ 0xDFFF then none
          else (parseStringBody r2).map
            (fun p => (Char.ofNat (((a * 16 + b) * 16 + c) * 16 + d) :: p.1, p.2))
        | _, _, _, _ => none
      | _ => none
    else none
termination_by structural s => s

end

/-- Insertion into an object under construction, with Python `dict`
semantics: an existing key keeps its position and takes the new value,
a fresh key is appended. -/
def objInsert (acc : List (String × JsonV)) (k : String) (v : JsonV) :
    List (String × JsonV) :=
  if acc.any (fun kv => kv.1 = k) then
    acc.map (fun kv => if kv.1 = k then (k, v) else kv)
  else acc ++ [(k, v)]

mutual

/-- Parse one JSON value at the head of the input (no leading
whitespace skipped: callers skip, as in the CPython scanner).  The
`NaN`/`Infinity` extensions of the CPython scanner produce floats and
are unmodelled: here they fall into the numeric branch and fail. -/
def parseVal : Nat → List Char → Option (JsonV × List Char)
  | 0, _ => none
  | _ + 1, [] => none
  | fuel + 1, c :: rest =>
    if c = '{' then
      if (skipWs rest).head? = some '}' then some (.obj [], (skipWs rest).tail)
      else parseObjItems fuel (skipWs rest) []
    else if c = '[' then
      if (skipWs rest).head? = some ']' then some (.arr [], (skipWs rest).tail)
      else parseArrItems fuel (skipWs rest) []
    else if c = '"' then (parseStringBody rest).map (fun p => (.str ⟨p.1⟩, p.2))
    else if c = 't' then
      match rest with
      | 'r' :: 'u' :: 'e' :: r => some (.bool true, r)
      | _ => none
    else if c = 'f' then
      match rest with
      | 'a' :: 'l' :: 's' :: 'e' :: r => some (.bool false, r)
      | _ => none
    else if c = 'n' then
      match rest with
      | 'u' :: 'l' :: 'l' :: r => some (.null, r)
      | _ => none
    else (parseIntTok (c :: rest)).map (fun p => (.num p.1, p.2))
termination_by structural fuel => fuel

/-- Parse one or more `"key": value` items, comma separated. -/
def parseObjItems : Nat → List Char → List (String × JsonV) →
    Option (JsonV × List Char)
  | 0, _, _ => none
  | fuel + 1, s, acc =>
    match s with
    | '"' :: r1 =>
      match parseStringBody r1 with
      | none => none
      | some (k, r2) =>
        match skipWs r2 with
        | ':' :: r3 =>
          match parseVal fuel (skipWs r3) with
          | none => none
          | some (v, r4) =>
            match skipWs r4 with
            | ',' :: r5 => parseObjItems fuel (skipWs r5) (objInsert acc ⟨k⟩ v)
            | '}' :: r5 => some (.obj (objInsert acc ⟨k⟩ v), r5)
            | _ => none
        | _ => none
    | _ => none
termination_by structural fuel _s _acc => fuel

/-- Parse one or more array elements, comma separated. -/
def parseArrItems : Nat → List Char → List JsonV → Option (JsonV × List Char)
  | 0, _, _ => none
  | fuel + 1, s, acc =>
    match parseVal fuel s with
    | none => none
    | some (v, r1) =>
      match skipWs r1 with
      | ',' :: r2 => parseArrItems fuel (skipWs r2) (acc ++ [v])
      | ']' :: r2 => some (.arr (acc ++ [v]), r2)
      | _ => none
termination_by structural fuel _s _acc => fuel

end

/-- Model of `json.loads`: skip leading whitespace, parse one value,
require only whitespace to follow. -/
def json_loads (text : String) : Option JsonV :=
  let s := skipWs text.data
  match parseVal (s.length + 1) s with
  | none => none
  | some (v, rest) => if skipWs rest = [] then some v else none

/-! ## Round-trip: `json.loads (json.dumps v) = v`

The claims about the structured-output extractor quantify over texts
obtained by serializing a schema-conforming object; the workhorse is
the round-trip theorem below, proved for every `JsonV` whose objects
have pairwise distinct keys (a Python `dict` cannot have duplicates,
so every serialized object satisfies this). -/
/-- Key lists without repetition. -/
def listNodup : List String → Bool
  | [] => true
  | k :: ks => !ks.contains k && listNodup ks

mutual

/-- Every object in the value has pairwise distinct keys.  Serialized
Python objects always do, since `dict` keys are unique. -/
def uniqV : JsonV → Bool
  | .null | .bool _ | .num _ | .str _ => true
  | .arr es => uniqItems es
  | .obj kvs => listNodup (kvs.map Prod.fst) && uniqFields kvs

/-- `uniqV` over the elements of an array. -/
def uniqItems : List JsonV → Bool
  | [] => true
  | v :: rest => uniqV v && uniqItems rest

/-- `uniqV` over the values of an object. -/
def uniqFields : List (String × JsonV) → Bool
  | [] => true
  | (_, v) :: rest => uniqV v && uniqFields rest

end

mutual

/-- Structural size of a value: a fuel bound for the parser. -/
def sizeV : JsonV → Nat
  | .null | .bool _ | .num _ | .str _ => 1
  | .arr es => 1 + sizeItems es
  | .obj kvs => 1 + sizeFields kvs

/-- Size of array elements. -/
def sizeItems : List JsonV → Nat
  | [] => 0
  | v :: rest => 1 + sizeV v + sizeItems rest

/-- Size of object fields. -/
def sizeFields : List (String × JsonV) → Nat
  | [] => 0
  | (_, v) :: rest => 1 + sizeV v + sizeFields rest

end

/-- The character after a serialized value in any serialization context
(`,`, `]`, `}` or end of input) can never extend a numeric token. -/
def goodAfter : List Char → Prop
  | [] => True
  | c :: _ => ¬(isDigitC c = true ∨ c = '.' ∨ c = 'e' ∨ c = 'E')

/-- Tail-accumulating decimal value of a digit list. -/
def digitsVal : Nat → List Char → Nat
  | acc, [] => acc
  | acc, c :: rest => digitsVal (acc * 10 + digVal c) rest

/-- No digit at the head of the remainder (so greedy digit reading stops). -/
def headNotDigit : List Char → Prop
  | [] => True
  | c :: _ => isDigitC c = false

/-! ## `app/llm/provider.py`: the structured-output extractor

`_extract_first_json` is a three-stage pipeline: direct parse when the
stripped text starts with `{` or `[`, then a ```` ```json ````-fenced
block, then any fenced block, then a first-`{`-to-last-`}` bracket
scan.  The regex searches are compiled here into explicit leftmost
scans with the same group semantics. -/
/-- The backtick character (spelled by code point). -/
def backtick : Char := Char.ofNat 96

/-- Three backticks, the fence delimiter of the code-block regexes. -/
def tripleTick : List Char := [backtick, backtick, backtick]

/-- Case-insensitive character comparison, per `re.IGNORECASE`. -/
def ciEq (a b : Char) : Bool := asciiLower a = asciiLower b

/-- Case-insensitive list-prefix test. -/
def ciStarts : List Char → List Char → Bool
  | [], _ => true
  | _ :: _, [] => false
  | p :: ps, c :: cs => ciEq p c && ciStarts ps cs

/-- Split at the first occurrence of a triple backtick: text before it
and text after it. -/
def splitAtTriple : List Char → Option (List Char × List Char)
  | [] => none
  | c :: rest =>
    if tripleTick.isPrefixOf (c :: rest) then some ([], (c :: rest).drop 3)
    else (splitAtTriple rest).map (fun p => (c :: p.1, p.2))

/-- An attempted fence match anchored at the start of `s`: the opener
(case-insensitively), then the greedy `\s*`, then the lazy group up to
the first closing triple backtick. -/
def fenceAt (opener : List Char) (s : List Char) : Option (List Char) :=
  if ciStarts opener s then
    (splitAtTriple ((s.drop opener.length).dropWhile pyWsChar)).map Prod.fst
  else none

/-- Leftmost fence match, as `re.search` scans start positions. -/
def searchFence (opener : List Char) : List Char → Option (List Char)
  | [] => none
  | c :: rest =>
    match fenceAt opener (c :: rest) with
    | some g => some g
    | none => searchFence opener rest

/-- One iteration of the fenced-block loop body of
`_extract_first_json`: search, strip the group, skip when empty, then
`json.loads`, treating a decode failure as no result (`continue`). -/
def tryFencePattern (opener : List Char) (s : List Char) : Option JsonV :=
  match searchFence opener s with
  | none => none
  | some g =>
    let candidate := pyStrip g
    if candidate = [] then none
    else json_loads ⟨candidate⟩

/-- The ```` ```json ```` opener of the first fence pattern. -/
def jsonFence : List Char := tripleTick ++ ['j', 's', 'o', 'n']

/-- Index of the last character satisfying `p` (Python `str.rfind`). -/
def rIdxOfP (p : Char → Bool) (s : List Char) : Option Nat :=
  (idxOfP p s.reverse).map (fun i => s.length - 1 - i)

/-- Stage 3 of `_extract_first_json`: take the substring from the
first `{` to the last `}` and attempt a parse. -/
def bracketScan (s : List Char) : Option JsonV :=
  match idxOfP (· = '{') s, rIdxOfP (· = '}') s with
  | some st, some en =>
    if st < en then json_loads ⟨(s.drop st).take (en + 1 - st)⟩ else none
  | _, _ => none

/-- Which stage of `_extract_first_json` produced the value. -/
inductive ExtractStage where
  | direct
  | fencedJson
  | fencedAny
  | bracket
deriving DecidableEq, Repr

/-- Model of `_extract_first_json`, instrumented with the stage that
produced the result; the source function is this with the stage tag
erased.  An empty or whitespace-only text yields nothing; stage 1
fires only when the stripped text starts with `{` or `[`; each later
stage is attempted only when every earlier one produced nothing. -/
def extract_first_json_staged (text : String) : Option (ExtractStage × JsonV) :=
  let s := pyStrip text.data
  match s with
  | [] => none
  | c :: _ =>
    let direct : Option JsonV :=
      if c = '{' || c = '[' then json_loads ⟨s⟩ else none
    match direct with
    | some v => some (.direct, v)
    | none =>
      match tryFencePattern jsonFence s with
      | some v => some (.fencedJson, v)
      | none =>
        match tryFencePattern tripleTick s with
        | some v => some (.fencedAny, v)
        | none => (bracketScan s).map (fun v => (.bracket, v))

/-- Model of `_extract_first_json` itself. -/
def extract_first_json (text : String) : Option JsonV :=
  (extract_first_json_staged text).map Prod.snd

/-! ## `_extract_xy_pairs`: the two coordinate-pair regex families -/
/-- Match of `_RE_XY_PAIR` (`x\s*[:=]\s*(\d+)\s*[,，]\s*y\s*[:=]\s*(\d+)`,
case-insensitive) anchored at the start of `s`; returns the pair and
the input after the match. -/
def matchXYAt (s : List Char) : Option ((Nat × Nat) × List Char) :=
  match s with
  | [] => none
  | c :: r0 =>
    if ciEq c 'x' then
      match r0.dropWhile pyWsChar with
      | [] => none
      | d :: r1 =>
        if d = ':' || d = '=' then
          let r2 := r1.dropWhile pyWsChar
          match r2 with
          | [] => none
          | e :: _ =>
            if isDigitC e then
              let xs := r2.takeWhile isDigitC
              let r3 := (r2.dropWhile isDigitC).dropWhile pyWsChar
              match r3 with
              | [] => none
              | f :: r4 =>
                if f = ',' || f = '，' then
                  match r4.dropWhile pyWsChar with
                  | [] => none
                  | g :: r5 =>
                    if ciEq g 'y' then
                      match r5.dropWhile pyWsChar with
                      | [] => none
                      | h :: r6 =>
                        if h = ':' || h = '=' then
                          let r7 := r6.dropWhile pyWsChar
                          match r7 with
                          | [] => none
                          | i :: _ =>
                            if isDigitC i then
                              some ((digitsVal 0 xs,
                                digitsVal 0 (r7.takeWhile isDigitC)),
                                r7.dropWhile isDigitC)
                            else none
                        else none
                    else none
                else none
            else none
        else none
    else none

/-- Match of `_RE_PAREN_PAIR` (`\(\s*(\d+)\s*[,，]\s*(\d+)\s*\)`)
anchored at the start of `s`. -/
def matchParenAt (s : List Char) : Option ((Nat × Nat) × List Char) :=
  match s with
  | [] => none
  | c :: r0 =>
    if c = '(' then
      let r1 := r0.dropWhile pyWsChar
      match r1 with
      | [] => none
      | d :: _ =>
        if isDigitC d then
          let xs := r1.takeWhile isDigitC
          let r2 := (r1.dropWhile isDigitC).dropWhile pyWsChar
          match r2 with
          | [] => none
          | e :: r3 =>
            if e = ',' || e = '，' then
              let r4 := r3.dropWhile pyWsChar
              match r4 with
              | [] => none
              | f :: _ =>
                if isDigitC f then
                  let ys := r4.takeWhile isDigitC
                  let r5 := (r4.dropWhile isDigitC).dropWhile pyWsChar
                  match r5 with
                  | [] => none
                  | g :: r6 =>
                    if g = ')' then
                      some ((digitsVal 0 xs, digitsVal 0 ys), r6)
                    else none
                else none
            else none
        else none
    else none

/-- `re.finditer` scan: leftmost non-overlapping matches, resuming
after each match; the fuel is the input length, which bounds the
number of scan steps since every step consumes at least one
character. -/
def finditerAux (m : List Char → Option ((Nat × Nat) × List Char)) :
    Nat → List Char → List (Nat × Nat)
  | 0, _ => []
  | _ + 1, [] => []
  | fuel + 1, c :: rest =>
    match m (c :: rest) with
    | some (p, after) => p :: finditerAux m fuel after
    | none => finditerAux m fuel rest

/-- All `_RE_XY_PAIR` matches of a text, in order. -/
def findXYPairs (s : List Char) : List (Nat × Nat) :=
  finditerAux matchXYAt s.length s

/-- All `_RE_PAREN_PAIR` matches of a text, in order. -/
def findParenPairs (s : List Char) : List (Nat × Nat) :=
  finditerAux matchParenAt s.length s

/-- Order-preserving first-occurrence deduplication, with the `seen`
set of the source as a list. -/
def dedupPairs (seen : List (Nat × Nat)) : List (Nat × Nat) → List (Nat × Nat)
  | [] => []
  | p :: rest =>
    if p ∈ seen then dedupPairs seen rest
    else p :: dedupPairs (p :: seen) rest

/-- Model of `_extract_xy_pairs`: all `x=, y=`-family matches, then
all parenthesized-family matches, deduplicated keeping the first
occurrence in that concatenated order. -/
def extract_xy_pairs (text : String) : List (Nat × Nat) :=
  if text.data = [] then []
  else dedupPairs [] (findXYPairs text.data ++ findParenPairs text.data)

/-! ## `_salvage_from_text` and `_normalize_for_schema` -/
/-- First-occurrence association-list lookup; Python `dict`s have
unique keys, so this is `dict.get` on every value the code builds. -/
def jget (kvs : List (String × JsonV)) (k : String) : Option JsonV :=
  match kvs with
  | [] => none
  | (k0, v) :: rest => if k0 = k then some v else jget rest k

/-- Model of `_salvage_from_text`.  `fields` models
`response_schema.model_fields` (the declared field names, in order);
`user_prompt` is `None` or a string, and `challenge_prompt` is
`user_prompt or ""`. -/
def salvage_from_text (text : String) (fields : List String)
    (user_prompt : Option String) : Option JsonV :=
  let challenge_prompt : String := user_prompt.getD ""
  let xy_pairs := extract_xy_pairs text
  if fields.contains "paths" then
    match xy_pairs with
    | (sx, sy) :: (ex, ey) :: _ =>
      some (.obj [("challenge_prompt", .str challenge_prompt),
        ("paths", .arr [.obj [
          ("start_point", .obj [("x", .num sx), ("y", .num sy)]),
          ("end_point", .obj [("x", .num ex), ("y", .num ey)])]])])
    | _ => none
  else if fields.contains "points" then
    match xy_pairs with
    | [] => none
    | _ =>
      some (.obj [("challenge_prompt", .str challenge_prompt),
        ("points", .arr (xy_pairs.map (fun p =>
          .obj [("x", .num p.1), ("y", .num p.2)])))])
  else if fields.contains "challenge_type" then
    let t := pyStrip (pyStripChar backtick (pyStrip text.data))
    if t = [] then none
    else some (.obj [("challenge_prompt", .str challenge_prompt),
      ("challenge_type", .str ⟨t⟩)])
  else none

/-- First block of `_normalize_for_schema`: inject a missing
`challenge_prompt` (appended, as Python `dict` assignment of a new key
appends) when the schema declares one. -/
def normalize_inject_cp (fields : List String) (user_prompt : Option String)
    (kvs : List (String × JsonV)) : List (String × JsonV) :=
  if fields.contains "challenge_prompt" && (jget kvs "challenge_prompt").isNone
  then kvs ++ [("challenge_prompt", .str (user_prompt.getD ""))]
  else kvs

/-- Second block: lift a flat `start_point`/`end_point` object into a
one-element `paths` list when the schema expects `paths` and none is
present. -/
def normalize_lift_paths (fields : List String) (user_prompt : Option String)
    (kvs : List (String × JsonV)) : List (String × JsonV) :=
  match jget kvs "start_point", jget kvs "end_point" with
  | some sp, some ep =>
    if fields.contains "paths" && (jget kvs "paths").isNone then
      [("challenge_prompt",
        (jget kvs "challenge_prompt").getD (.str (user_prompt.getD ""))),
       ("paths", JsonV.arr [JsonV.obj [("start_point", sp), ("end_point", ep)]])]
    else kvs
  | _, _ => kvs

/-- Third block: lift a flat `x`/`y` object into a one-element
`points` list, inspecting the object as the previous block left it. -/
def normalize_lift_points (fields : List String) (user_prompt : Option String)
    (kvs : List (String × JsonV)) : List (String × JsonV) :=
  match jget kvs "x", jget kvs "y" with
  | some vx, some vy =>
    if fields.contains "points" && (jget kvs "points").isNone then
      [("challenge_prompt",
        (jget kvs "challenge_prompt").getD (.str (user_prompt.getD ""))),
       ("points", JsonV.arr [JsonV.obj [("x", vx), ("y", vy)]])]
    else kvs
  | _, _ => kvs

/-- Model of `_normalize_for_schema`: the three blocks in source
order on a `dict`; any non-`dict` value passes through unchanged. -/
def normalize_for_schema (parsed : JsonV) (fields : List String)
    (user_prompt : Option String) : JsonV :=
  match parsed with
  | .obj kvs0 =>
    .obj (normalize_lift_points fields user_prompt
      (normalize_lift_paths fields user_prompt
        (normalize_inject_cp fields user_prompt kvs0)))
  | other => other

/-! ## `app/llm/url.py` and the `urllib.parse` fragment it uses

`urlsplit`/`urlunsplit` follow CPython: strip leading C0-control/space
characters, remove tab, carriage return and newline everywhere, detect
a scheme (leading ASCII letter, then letters, digits, `+`, `-`, `.`,
up to the first colon, lower-cased), split a `//`-led netloc at the
first `/`, `?` or `#`, then split off the fragment at the first `#`
and the query at the first `?`.  CPython's validation of bracketed
IPv6 hosts (which raises `ValueError`) is not modelled; the claims
quantify over URLs without brackets, where `urlsplit` is total. -/
structure UrlParts where
  scheme : List Char
  netloc : List Char
  path : List Char
  query : List Char
  fragment : List Char
deriving Repr

/-- C0 control characters and space, as `_WHATWG_C0_CONTROL_OR_SPACE`. -/
def c0OrSpace (c : Char) : Bool := decide (c.toNat ≤ 0x20)

/-- Tab, carriage return and newline, `_UNSAFE_URL_BYTES_TO_REMOVE`. -/
def unsafeUrlByte (c : Char) : Bool := c = '\t' || c = '\r' || c = '\n'

/-- `scheme_chars` of `urllib.parse`. -/
def schemeChar (c : Char) : Bool :=
  c.isAlpha || ('0' ≤ c && c ≤ '9') || c = '+' || c = '-' || c = '.'

/-- Netloc delimiters: the netloc extends to the first of these. -/
def netlocDelim (c : Char) : Bool := c = '/' || c = '?' || c = '#'

/-- CPython's sanitization before splitting: strip leading C0-control
and space characters, then remove tab, carriage return and newline
everywhere. -/
def sanitizeUrl (url0 : List Char) : List Char :=
  (url0.dropWhile c0OrSpace).filter (fun c => !unsafeUrlByte c)

/-- Scheme detection: up to the first colon, an ASCII letter followed
by scheme characters, lower-cased; otherwise no scheme is split off. -/
def splitScheme (url : List Char) : List Char × List Char :=
  let pre := url.takeWhile (· ≠ ':')
  let post := url.dropWhile (· ≠ ':')
  if post = [] then ([], url)
  else
    match pre.head? with
    | none => (([] : List Char), url)
    | some c =>
      if c.isAlpha && pre.all schemeChar then (pre.map asciiLower, post.drop 1)
      else ([], url)

/-- Netloc extraction: a `//`-led remainder is split at the first `/`,
`?` or `#`. -/
def splitNetloc (url1 : List Char) : List Char × List Char :=
  if url1.take 2 = ['/', '/'] then
    ((url1.drop 2).takeWhile (fun c => !netlocDelim c),
      (url1.drop 2).dropWhile (fun c => !netlocDelim c))
  else (([] : List Char), url1)

/-- Fragment split at the first `#`. -/
def splitFrag (url2 : List Char) : List Char × List Char :=
  if url2.contains '#' then
    (url2.takeWhile (· ≠ '#'), (url2.dropWhile (· ≠ '#')).drop 1)
  else (url2, [])

/-- Query split at the first `?`. -/
def splitQuery (url3 : List Char) : List Char × List Char :=
  if url3.contains '?' then
    (url3.takeWhile (· ≠ '?'), (url3.dropWhile (· ≠ '?')).drop 1)
  else (url3, [])

/-- Model of `urllib.parse.urlsplit` on the sanitized character
list (scheme detection, netloc, fragment, query). -/
def urlsplitCore (url0 : List Char) : UrlParts :=
  let url := sanitizeUrl url0
  let a := splitScheme url
  let b := splitNetloc a.2
  let f := splitFrag b.2
  let q := splitQuery f.1
  ⟨a.1, b.1, q.1, q.2, f.2⟩

/-- `urlsplit` on a string. -/
def urlsplitS (url : String) : UrlParts := urlsplitCore url.data

/-- Model of `urllib.parse.urlunsplit`. -/
def urlunsplitS (p : UrlParts) : List Char :=
  let url :=
    if p.netloc ≠ [] ∨ (p.path ≠ [] ∧ p.path.take 2 = ['/', '/']) then
      '/' :: '/' :: p.netloc ++
        (if p.path ≠ [] ∧ p.path.take 1 ≠ ['/'] then '/' :: p.path else p.path)
    else p.path
  let url2 := if p.scheme ≠ [] then p.scheme ++ ':' :: url else url
  let url3 := if p.query ≠ [] then url2 ++ '?' :: p.query else url2
  if p.fragment ≠ [] then url3 ++ '#' :: p.fragment else url3

/-- `posixpath.join`: each part replaces the path when absolute,
otherwise is appended with a separating slash unless the path is empty
or already ends in one. -/
def posixJoin (a : List Char) (ps : List (List Char)) : List Char :=
  ps.foldl
    (fun path b =>
      if b.take 1 = ['/'] then b
      else if path = [] ∨ path.getLast? = some '/' then path ++ b
      else path ++ '/' :: b)
    a

/-- Python `str.rstrip("/")`. -/
def rstripSlash (s : List Char) : List Char :=
  (s.reverse.dropWhile (· = '/')).reverse

/-- Python `str.strip("/")`. -/
def stripSlash (s : List Char) : List Char :=
  ((s.dropWhile (· = '/')).reverse.dropWhile (· = '/')).reverse

/-- The raised `ValueError`s of `join_url`, which §7 of the design
classifies as configuration errors. -/
inductive UrlError where
  | emptyBase
deriving DecidableEq, Repr

/-- `join_url` on an already-coerced, non-empty, stripped base. -/
def join_url_core (base : List Char) (paths : List String) : List Char :=
  let parts := urlsplitCore base
  let base_path := rstripSlash parts.path
  let clean_parts := (paths.map (fun p => stripSlash p.data)).filter (· ≠ [])
  let new_path := if clean_parts = [] then base_path else posixJoin base_path clean_parts
  let new_path2 :=
    if parts.scheme ≠ [] ∧ parts.netloc ≠ [] then
      if new_path.take 1 ≠ ['/'] then
        if new_path ≠ [] then '/' :: new_path else ['/']
      else new_path
    else new_path
  urlunsplitS ⟨parts.scheme, parts.netloc, new_path2, parts.query, parts.fragment⟩

/-- The Python values a caller might pass as `base_url`: `None`, a
string, or a non-string (represented by an integer) that `str()`
coerces. -/
inductive PyBase where
  | vNone
  | vStr (s : String)
  | vInt (n : Int)
deriving Repr

/-- Python `str()` of a `PyBase`. -/
def pyStrOf : PyBase → String
  | .vNone => "None"
  | .vStr s => s
  | .vInt n => toString n

/-- Model of `join_url`: `None` is rejected, any other value is
coerced with `str()` and stripped; an empty result is rejected;
otherwise the pieces are joined as `join_url_core` does. -/
def join_url (base : PyBase) (paths : List String) : Except UrlError String :=
  match base with
  | .vNone => .error .emptyBase
  | b =>
    let s := pyStrip (pyStrOf b).data
    if s = [] then .error .emptyBase
    else .ok ⟨join_url_core s paths⟩

/-- `join_url` for string bases, the only form the endpoint resolvers
use. -/
def join_urlS (base : String) (paths : List String) : Except UrlError String :=
  join_url (.vStr base) paths

/-- Model of `_path_segments`: the non-empty `/`-separated segments of
the URL's path. -/
def path_segments (url : String) : List (List Char) :=
  ((urlsplitS url).path.splitOn '/').filter (· ≠ [])

/-- Whether two given segments occur consecutively in a segment list,
as the loop of `has_v1beta_openai` detects. -/
def consecPair (a b : List Char) : List (List Char) → Bool
  | [] => false
  | [_] => false
  | x :: y :: rest => (x = a && y = b) || consecPair a b (y :: rest)

/-- Model of `has_v1beta`: the path contains `v1beta` as a whole
segment. -/
def has_v1beta (url : String) : Bool :=
  path_segments url |>.contains "v1beta".data

/-- Model of `has_v1beta_openai`: the path contains the consecutive
whole segments `v1beta`, `openai`. -/
def has_v1beta_openai (url : String) : Bool :=
  consecPair "v1beta".data "openai".data (path_segments url)

/-! ## `app/llm/endpoints.py` -/
/-- The failures of endpoint resolution: the `ValueError` of an
empty base (from `join_url`) and the `ValueError` raised when a
GEMINI_NATIVE base already contains `/v1beta/openai`.  The design's
§7 classifies both as configuration errors. -/
inductive EndpointError where
  | emptyBase
  | v1betaOpenaiConflict
deriving DecidableEq, Repr

/-- Lift a `join_url` result into endpoint-resolution results. -/
def liftJoin (r : Except UrlError String) : Except EndpointError String :=
  match r with
  | .error .emptyBase => .error .emptyBase
  | .ok u => .ok u

def build_openai_models_url (base_url : String) : Except EndpointError String :=
  liftJoin (join_urlS base_url ["models"])

def build_openai_chat_completions_url (base_url : String) :
    Except EndpointError String :=
  liftJoin (join_urlS base_url ["chat/completions"])

def build_gemini_native_models_url (root : String) : Except EndpointError String :=
  if has_v1beta_openai root then .error .v1betaOpenaiConflict
  else if has_v1beta root then liftJoin (join_urlS root ["models"])
  else liftJoin (join_urlS root ["v1beta/models"])

def build_gemini_native_generate_content_url (root : String) (model : String) :
    Except EndpointError String :=
  if has_v1beta_openai root then .error .v1betaOpenaiConflict
  else if has_v1beta root then
    liftJoin (join_urlS root ["models/" ++ model ++ ":generateContent"])
  else
    liftJoin (join_urlS root ["v1beta", "models/" ++ model ++ ":generateContent"])

def build_gemini_openai_base_url (root : String) : Except EndpointError String :=
  if has_v1beta_openai root then .ok root
  else if has_v1beta root then liftJoin (join_urlS root ["openai"])
  else liftJoin (join_urlS root ["v1beta/openai"])

def build_gemini_openai_chat_completions_url (root : String) :
    Except EndpointError String :=
  match build_gemini_openai_base_url root with
  | .error e => .error e
  | .ok b => liftJoin (join_urlS b ["chat/completions"])

/-! ## `app/llm/http.py`: `response_json_checked`

The response is modelled by its status code, its `content-type` header
(absent allowed) and its body text; `resp.content or b""` is empty
exactly when the body text is empty, and `resp.json()` is `json_loads`
of the body.  `resp.is_error` in httpx is `400 <= status_code <= 599`.
The distinct raised errors keep the names the design gives them; the
logging calls carry no control flow and are not modelled. -/
structure HttpResponse where
  status_code : Nat
  content_type : Option String
  body : String
deriving Repr

inductive RespError where
  | EmptyBody
  | NonJSONResponse
  | JSONDecodeFailure
  | HTTPError
deriving DecidableEq, Repr

def response_json_checked (r : HttpResponse) : Except RespError JsonV :=
  let content_type : List Char := ((r.content_type.getD "").data.map asciiLower)
  if r.body = "" then .error .EmptyBody
  else if !(containsSub "application/json".data content_type) then
    .error .NonJSONResponse
  else
    match json_loads r.body with
    | none => .error .JSONDecodeFailure
    | some data =>
      if 400 ≤ r.status_code ∧ r.status_code ≤ 599 then .error .HTTPError
      else .ok data

/-! ## The transport phase of `generate_with_images`

The mode-dispatched payload assembly (`provider.py` lines 304-368)
fixes the top-level keys of the first request body; the message /
content values are opaque parameters here since the retry policy never
inspects them.  The downgrade retry (lines 377-389) issues a second
request with `response_format` popped from a copy of the payload
exactly when the first request raised and the mode is one of the
OpenAI-shaped ones and the payload carries a `response_format` key;
any other failure re-raises. -/
inductive LLMMode where
  | openai
  | gemini_native
  | gemini_openai
deriving DecidableEq, Repr

/-- The first request payload of `generate_with_images`, at the level
of its top-level keys and the values the claims are about.  `msgs`
and `contents`/`systemInstruction` stand for the assembled message
lists, which the retry logic never reads. -/
def firstPayload (mode : LLMMode) (model : String) (msgs : JsonV)
    (contents : JsonV) (sysInstr : JsonV) : List (String × JsonV) :=
  match mode with
  | .openai | .gemini_openai =>
    [("model", .str model), ("messages", msgs), ("temperature", .num 0),
     ("response_format", .obj [("type", .str "json_object")])]
  | .gemini_native =>
    [("contents", contents),
     ("generationConfig", .obj [("responseMimeType", .str "application/json")]),
     ("systemInstruction", sysInstr)]

/-- `"response_format" in payload` on the modelled payload. -/
def payloadHasKey (payload : List (String × JsonV)) (k : String) : Bool :=
  (jget payload k).isSome

/-- `payload2 = dict(payload); payload2.pop("response_format", None)`:
the same pairs with the `response_format` entry removed. -/
def stripResponseFormat (payload : List (String × JsonV)) :
    List (String × JsonV) :=
  payload.filter (fun kv => kv.1 ≠ "response_format")

/-- Outcome of one HTTP round trip through `response_json_checked`:
either decoded JSON or a raised `LLMHTTPError`/`httpx.HTTPError`. -/
inductive ReqOutcome where
  | ok (data : JsonV)
  | err

/-- A trace of the transport phase: which payloads were sent, in
order, and the final result (`none` models the exception
propagating). -/
structure TransportTrace where
  sent : List (List (String × JsonV))
  result : Option JsonV

/-- Model of the first-request-with-downgrade-retry block of
`generate_with_images`: `outcome i` is what the `i`-th HTTP request
returns.  On a first failure, the retry fires exactly when the mode is
OpenAI-shaped and the payload carries `response_format`; the retry
payload is the copy with that key popped; a second failure
propagates. -/
def requestWithDowngrade (mode : LLMMode) (payload : List (String × JsonV))
    (outcome : Nat → ReqOutcome) : TransportTrace :=
  match outcome 0 with
  | .ok data => ⟨[payload], some data⟩
  | .err =>
    if (mode = .openai ∨ mode = .gemini_openai) ∧
        payloadHasKey payload "response_format" then
      match outcome 1 with
      | .ok data => ⟨[payload, stripResponseFormat payload], some data⟩
      | .err => ⟨[payload, stripResponseFormat payload], none⟩
    else ⟨[payload], none⟩

/-! ## The parse / salvage / repair phase of `generate_with_images`

Lines 406-465 of `provider.py`: stages 1-3 via `_extract_first_json`,
stage 4 via `_salvage_from_text`, and the repair pass, whose network
round trip is abstracted by `repairText` — the assistant text the
repair request produced, `none` when the request failed or no text
was found. -/
def extraction_pipeline (text : String) (fields : List String)
    (user_prompt : Option String) (repairText : Option String) : Option JsonV :=
  let parsed0 := extract_first_json text
  let parsed1 :=
    match parsed0 with
    | some p => some p
    | none => salvage_from_text text fields user_prompt
  match parsed1 with
  | some p => some p
  | none =>
    match repairText with
    | none => none
    | some t2 =>
      match extract_first_json t2 with
      | some p => some p
      | none => salvage_from_text t2 fields user_prompt

/-- Values that serialize to text starting with `{` or `[` — the
shape of every schema-conforming object. -/
def isContainer : JsonV → Bool
  | .arr _ => true
  | .obj _ => true
  | _ => false

/-- URLs without square brackets: the fragment of URL space on which
CPython's `urlsplit` never raises and the model here is exact. -/
def bracketFree (s : String) : Prop := '[' ∉ s.data ∧ ']' ∉ s.data

/-- A schema-conforming sample object of the area-select schema, used
to instantiate the round-trip claim. -/
def c6obj : JsonV :=
  .obj [("challenge_prompt", .str "pick the target"),
    ("points", .arr [.obj [("x", .num 10), ("y", .num 20)]])]

/-- Index of the first occurrence, with list length for a missing
element. -/
def idxOf (a : Nat × Nat) : List (Nat × Nat) → Nat
  | [] => 0
  | b :: l => if b = a then 0 else idxOf a l + 1

/-- Dict values: the shapes `_normalize_for_schema` reshapes. -/
def isDict : JsonV → Bool
  | .obj _ => true
  | _ => false

/-- Cleanliness of absolute URL parts: the shape `urlsplit` itself
produces for an absolute URL.  On such parts `urlsplit` undoes
`urlunsplit`. -/
def cleanAbs (P : UrlParts) : Prop :=
  (∃ c r, P.scheme = c :: r ∧ c.isAlpha = true)
  ∧ (∀ c ∈ P.scheme, schemeChar c = true)
  ∧ P.scheme.map asciiLower = P.scheme
  ∧ P.netloc ≠ []
  ∧ (∀ c ∈ P.netloc, netlocDelim c = false ∧ unsafeUrlByte c = false)
  ∧ (P.path = [] ∨ P.path.take 1 = ['/'])
  ∧ (∀ c ∈ P.path, c ≠ '#' ∧ c ≠ '?' ∧ unsafeUrlByte c = false)
  ∧ (∀ c ∈ P.query, c ≠ '#' ∧ unsafeUrlByte c = false)
  ∧ (∀ c ∈ P.fragment, unsafeUrlByte c = false)

/-! ## The joined path and its segments -/
/-- The cleaned path components of `join_url`: each argument stripped
of surrounding slashes, empty results dropped. -/
def cleanParts (paths : List String) : List (List Char) :=
  (paths.map (fun p => stripSlash p.data)).filter (· ≠ [])

/-- The new path computed by `join_url` on an absolute base. -/
def joinedPath (p : List Char) (paths : List String) : List Char :=
  let base_path := rstripSlash p
  let new_path := if cleanParts paths = [] then base_path
    else posixJoin base_path (cleanParts paths)
  if new_path.take 1 ≠ ['/'] then
    (if new_path ≠ [] then '/' :: new_path else ['/'])
  else new_path

/-- `/`-concatenation of segments, the normal form of `posixpath.join`
on relative components. -/
def slashCat (segs : List (List Char)) : List Char :=
  segs.foldr (fun b acc => '/' :: (b ++ acc)) []

/-- The non-empty `/`-separated segments of a path, as `_path_segments`
computes them. -/
def segsOf (l : List Char) : List (List Char) :=
  (l.splitOn '/').filter (· ≠ [])

theorem sizeV_pos (v : JsonV) : 1 ≤ sizeV v := by
  cases v <;> simp [sizeV]

theorem digitsVal_nil (acc : Nat) : digitsVal acc [] = acc := rfl

theorem digitsVal_cons (acc : Nat) (c : Char) (rest : List Char) :
    digitsVal acc (c :: rest) = digitsVal (acc * 10 + digVal c) rest := rfl

theorem digitsVal_append (acc : Nat) (xs ys : List Char) :
    digitsVal acc (xs ++ ys) = digitsVal (digitsVal acc xs) ys := by
  induction xs generalizing acc with
  | nil => rfl
  | cons c rest ih => rw [List.cons_append, digitsVal_cons, digitsVal_cons, ih]

theorem toNat_charOfNat (n : Nat) (h : n < 55296) : (Char.ofNat n).toNat = n := by
  have hv : n.isValidChar := Or.inl h
  simp [Char.ofNat, hv, Char.ofNatAux, Char.toNat, UInt32.toNat, BitVec.toNat_ofNatLt]

theorem char_toNat_inj (c d : Char) (h : c.toNat = d.toNat) : c = d := by
  apply Char.eq_of_val_eq
  apply UInt32.eq_of_toBitVec_eq
  apply BitVec.eq_of_toNat_eq
  exact h

theorem char_le_iff_toNat (c d : Char) : c ≤ d ↔ c.toNat ≤ d.toNat := Iff.rfl

theorem digitChar_toNat (d : Nat) (h : d < 10) : (digitChar d).toNat = 48 + d := by
  rw [digitChar]
  exact toNat_charOfNat (48 + d) (by omega)

theorem digVal_digitChar (d : Nat) (h : d < 10) : digVal (digitChar d) = d := by
  simp [digVal, digitChar_toNat d h]

theorem isDigitC_digitChar (d : Nat) (h : d < 10) : isDigitC (digitChar d) = true := by
  have h0 : ('0' : Char).toNat = 48 := by decide
  have h9 : ('9' : Char).toNat = 57 := by decide
  simp only [isDigitC, Bool.and_eq_true, decide_eq_true_eq, char_le_iff_toNat,
    digitChar_toNat d h, h0, h9]
  omega

theorem natDigits_ne_nil (n : Nat) : natDigits n ≠ [] := by
  rw [natDigits]
  split <;> simp

theorem natDigits_all_digits (n : Nat) :
    ∀ c ∈ natDigits n, isDigitC c = true := by
  induction n using Nat.strong_induction_on with
  | _ n ih =>
    rw [natDigits]
    split
    · next h => simpa using isDigitC_digitChar n h
    · next h =>
      intro c hc
      simp only [List.mem_append, List.mem_singleton] at hc
      rcases hc with hc | hc
      · exact ih (n / 10) (Nat.div_lt_self (by omega) (by omega)) c hc
      · subst hc; exact isDigitC_digitChar _ (Nat.mod_lt _ (by omega))

theorem digitsVal_natDigits (n : Nat) :
    ∀ acc, digitsVal acc (natDigits n) = acc * 10 ^ (natDigits n).length + n := by
  induction n using Nat.strong_induction_on with
  | _ n ih =>
    intro acc
    rw [natDigits]
    split
    · next h =>
      rw [digitsVal_cons, digitsVal_nil, digVal_digitChar n h]
      simp
    · next h =>
      have hlt : n / 10 < n := Nat.div_lt_self (by omega) (by omega)
      rw [digitsVal_append, ih (n / 10) hlt acc, digitsVal_cons, digitsVal_nil,
        digVal_digitChar _ (Nat.mod_lt _ (by omega)), List.length_append,
        List.length_singleton, pow_succ]
      have hdm : n / 10 * 10 + n % 10 = n := by omega
      calc (acc * 10 ^ (natDigits (n / 10)).length + n / 10) * 10 + n % 10
          = acc * (10 ^ (natDigits (n / 10)).length * 10) + (n / 10 * 10 + n % 10) := by
            ring
        _ = acc * (10 ^ (natDigits (n / 10)).length * 10) + n := by rw [hdm]

theorem natDigits_head_ne_zero (n : Nat) (hn : 1 ≤ n) :
    ∀ c cs, natDigits n = c :: cs → c ≠ '0' := by
  induction n using Nat.strong_induction_on with
  | _ n ih =>
    intro c cs
    rw [natDigits]
    split
    · next h =>
      intro hc
      simp only [List.cons.injEq] at hc
      obtain ⟨rfl, -⟩ := hc
      intro hzero
      have h48 := congrArg Char.toNat hzero
      rw [digitChar_toNat n h] at h48
      have : ('0' : Char).toNat = 48 := by decide
      omega
    · next h =>
      have hlt : n / 10 < n := Nat.div_lt_self (by omega) (by omega)
      obtain ⟨c0, cs0, hnd⟩ : ∃ c0 cs0, natDigits (n / 10) = c0 :: cs0 := by
        cases hcase : natDigits (n / 10) with
        | nil => exact absurd hcase (natDigits_ne_nil _)
        | cons a b => exact ⟨a, b, rfl⟩
      rw [hnd]
      intro hc
      simp only [List.cons_append, List.cons.injEq] at hc
      obtain ⟨rfl, -⟩ := hc
      exact ih (n / 10) hlt (by omega) c0 cs0 hnd

theorem goodAfter_headNotDigit (rest : List Char) (h : goodAfter rest) :
    headNotDigit rest := by
  cases rest with
  | nil => trivial
  | cons c cs =>
    simp only [goodAfter, not_or] at h
    simpa [headNotDigit] using h.1

theorem readDigits_cons (c : Char) (rest : List Char) (acc : Nat) :
    readDigits (c :: rest) acc =
      if isDigitC c then readDigits rest (acc * 10 + digVal c) else (acc, c :: rest) := rfl

theorem readDigits_append (ds : List Char) :
    ∀ (rest : List Char) (acc : Nat), (∀ c ∈ ds, isDigitC c = true) →
      headNotDigit rest →
      readDigits (ds ++ rest) acc = (digitsVal acc ds, rest) := by
  induction ds with
  | nil =>
    intro rest acc _ hrest
    cases rest with
    | nil => rfl
    | cons c cs =>
      simp only [List.nil_append, readDigits_cons, digitsVal_nil]
      simp [headNotDigit] at hrest
      simp [hrest]
  | cons d ds ih =>
    intro rest acc hds hrest
    have hd : isDigitC d = true := hds d (by simp)
    simp only [List.cons_append, readDigits_cons, hd, if_true, digitsVal_cons]
    exact ih rest _ (fun c hc => hds c (by simp [hc])) hrest

theorem digitsVal_natDigits_zero (n : Nat) : digitsVal 0 (natDigits n) = n := by
  simpa using digitsVal_natDigits n 0

theorem natDigits_zero : natDigits 0 = ['0'] := by
  rw [natDigits]
  norm_num
  decide

theorem parseNatPart_natDigits (n : Nat) (rest : List Char) (hrest : headNotDigit rest) :
    parseNatPart (natDigits n ++ rest) = some (n, rest) := by
  rcases Nat.eq_zero_or_pos n with rfl | hn
  · rw [natDigits_zero]
    cases rest with
    | nil => rfl
    | cons c cs => rfl
  · obtain ⟨c, cs, hnd⟩ : ∃ c cs, natDigits n = c :: cs := by
      cases hcase : natDigits n with
      | nil => exact absurd hcase (natDigits_ne_nil _)
      | cons a b => exact ⟨a, b, rfl⟩
    have hc0 : c ≠ '0' := natDigits_head_ne_zero n hn c cs hnd
    have hcd : isDigitC c = true := natDigits_all_digits n c (by rw [hnd]; simp)
    have hcsd : ∀ x ∈ cs, isDigitC x = true := fun x hx =>
      natDigits_all_digits n x (by rw [hnd]; simp [hx])
    rw [hnd]
    simp only [List.cons_append, parseNatPart, hc0, if_false, hcd, if_true]
    rw [readDigits_append cs rest (digVal c) hcsd hrest]
    have : digitsVal (digVal c) cs = n := by
      have h0 := digitsVal_natDigits_zero n
      rw [hnd, digitsVal_cons] at h0
      simpa using h0
    rw [this]

theorem isDigitC_toNat (c : Char) (h : isDigitC c = true) :
    48 ≤ c.toNat ∧ c.toNat ≤ 57 := by
  have h0 : ('0' : Char).toNat = 48 := by decide
  have h9 : ('9' : Char).toNat = 57 := by decide
  simp only [isDigitC, Bool.and_eq_true, decide_eq_true_eq, char_le_iff_toNat, h0, h9] at h
  exact h

theorem parseIntCore_natDigits (n : Nat) (rest : List Char) (hrest : goodAfter rest) :
    parseIntCore (natDigits n ++ rest) = some (n, rest) := by
  rw [parseIntCore, parseNatPart_natDigits n rest (goodAfter_headNotDigit rest hrest)]
  cases rest with
  | nil => rfl
  | cons c cs =>
    simp only [goodAfter, not_or] at hrest
    simp [hrest.2.1, hrest.2.2.1, hrest.2.2.2]

theorem parseIntTok_serInt (n : Int) (rest : List Char) (hrest : goodAfter rest) :
    parseIntTok (serInt n ++ rest) = some (n, rest) := by
  rcases lt_or_ge n 0 with hneg | hpos
  · rw [serInt, if_pos hneg]
    show parseIntTok ('-' :: (natDigits n.natAbs ++ rest)) = some (n, rest)
    rw [parseIntTok, parseIntCore_natDigits n.natAbs rest hrest]
    have hval : -((n.natAbs : Nat) : Int) = n := by omega
    rw [Option.map_some']
    rw [hval]
  · rw [serInt, if_neg (by omega)]
    obtain ⟨c, cs, hnd⟩ : ∃ c cs, natDigits n.natAbs = c :: cs := by
      cases hcase : natDigits n.natAbs with
      | nil => exact absurd hcase (natDigits_ne_nil _)
      | cons a b => exact ⟨a, b, rfl⟩
    have hcd : isDigitC c = true := natDigits_all_digits _ c (by rw [hnd]; simp)
    have hcm : c ≠ '-' := by
      intro hc
      have := (isDigitC_toNat c hcd).1
      rw [hc] at this
      have : ('-' : Char).toNat = 45 := by decide
      omega
    rw [hnd]
    show parseIntTok (c :: (cs ++ rest)) = some (n, rest)
    rw [parseIntTok.eq_def]
    split
    · next heq =>
      exfalso
      simp only [List.cons.injEq] at heq
      exact hcm heq.1
    · rw [show c :: (cs ++ rest) = natDigits n.natAbs ++ rest by rw [hnd]; rfl,
        parseIntCore_natDigits n.natAbs rest hrest]
      have hval : ((n.natAbs : Nat) : Int) = n := by omega
      rw [Option.map_some']
      rw [hval]

theorem hexVal_digitChar (d : Nat) (h : d < 10) : hexVal (digitChar d) = some d := by
  rw [hexVal, if_pos]
  · rw [digitChar_toNat d h]
    simp
  · constructor <;> rw [char_le_iff_toNat] <;> rw [digitChar_toNat d h] <;>
      [show (48 : Nat) ≤ 48 + d; show 48 + d ≤ 57] <;> omega

theorem hexVal_lowHex (m : Nat) :
    hexVal (if m % 16 < 10 then digitChar (m % 16)
      else Char.ofNat (97 + m % 16 - 10)) = some (m % 16) := by
  rcases lt_or_ge (m % 16) 10 with hlt | hge
  · rw [if_pos hlt, hexVal_digitChar _ hlt]
  · rw [if_neg (by omega)]
    have hm16 : m % 16 < 16 := Nat.mod_lt _ (by omega)
    have htn : (Char.ofNat (97 + m % 16 - 10)).toNat = 97 + m % 16 - 10 :=
      toNat_charOfNat _ (by omega)
    rw [hexVal]
    rw [if_neg, if_pos]
    · congr 1
      omega
    · have ha : ('a' : Char).toNat = 97 := by decide
      have hf : ('f' : Char).toNat = 102 := by decide
      constructor <;> rw [char_le_iff_toNat] <;> omega
    · have h9 : ('9' : Char).toNat = 57 := by decide
      intro hcon
      have := hcon.2
      rw [char_le_iff_toNat, htn, h9] at this
      omega

theorem parseStringBody_ser (s : List Char) (rest : List Char) :
    parseStringBody (s.flatMap serStrChar ++ '"' :: rest) = some (s, rest) := by
  induction s with
  | nil => rfl
  | cons c cs ih =>
    rw [List.flatMap_cons, List.append_assoc]
    by_cases h1 : c = '"'
    · subst h1
      show (parseStringBody (cs.flatMap serStrChar ++ '"' :: rest)).map
        (fun p => ('"' :: p.1, p.2)) = some ('"' :: cs, rest)
      rw [ih]
      rfl
    · by_cases h2 : c = '\\'
      · subst h2
        show (parseStringBody (cs.flatMap serStrChar ++ '"' :: rest)).map
          (fun p => ('\\' :: p.1, p.2)) = some ('\\' :: cs, rest)
        rw [ih]
        rfl
      · by_cases h3 : c = '\n'
        · subst h3
          show (parseStringBody (cs.flatMap serStrChar ++ '"' :: rest)).map
            (fun p => ('\n' :: p.1, p.2)) = some ('\n' :: cs, rest)
          rw [ih]
          rfl
        · by_cases h4 : c = '\t'
          · subst h4
            show (parseStringBody (cs.flatMap serStrChar ++ '"' :: rest)).map
              (fun p => ('\t' :: p.1, p.2)) = some ('\t' :: cs, rest)
            rw [ih]
            rfl
          · by_cases h5 : c = '\r'
            · subst h5
              show (parseStringBody (cs.flatMap serStrChar ++ '"' :: rest)).map
                (fun p => ('\r' :: p.1, p.2)) = some ('\r' :: cs, rest)
              rw [ih]
              rfl
            · by_cases h6 : c = '\x08'
              · subst h6
                show (parseStringBody (cs.flatMap serStrChar ++ '"' :: rest)).map
                  (fun p => ('\x08' :: p.1, p.2)) = some ('\x08' :: cs, rest)
                rw [ih]
                rfl
              · by_cases h7 : c = '\x0c'
                · subst h7
                  show (parseStringBody (cs.flatMap serStrChar ++ '"' :: rest)).map
                    (fun p => ('\x0c' :: p.1, p.2)) = some ('\x0c' :: cs, rest)
                  rw [ih]
                  rfl
                · by_cases h8 : c.toNat < 0x20
                  · rw [serStrChar, if_neg h1, if_neg h2, if_neg h3, if_neg h4,
                      if_neg h5, if_neg h6, if_neg h7, if_pos h8]
                    show parseEsc ('u' :: '0' :: '0' ::
                      digitChar (c.toNat / 16) ::
                      (if c.toNat % 16 < 10 then digitChar (c.toNat % 16)
                        else Char.ofNat (97 + c.toNat % 16 - 10)) ::
                      (cs.flatMap serStrChar ++ '"' :: rest)) = _
                    rw [parseEsc]
                    norm_num
                    have hz : hexVal '0' = some 0 := by decide
                    rw [hz, hexVal_digitChar (c.toNat / 16) (by omega),
                      hexVal_lowHex c.toNat]
                    have hn : ((0 * 16 + 0) * 16 + c.toNat / 16) * 16 + c.toNat % 16
                        = c.toNat := by
                      have hmul : ((0 * 16 + 0) * 16 + c.toNat / 16) * 16
                          = c.toNat / 16 * 16 := by ring
                      rw [hmul]
                      omega
                    simp only [hn]
                    have hsur : ¬(55296 ≤ c.toNat ∧ c.toNat ≤ 57343) := by omega
                    rw [if_neg hsur, ih]
                    have hc : Char.ofNat c.toNat = c :=
                      char_toNat_inj _ _ (toNat_charOfNat c.toNat (by omega))
                    simp [hc]
                  · rw [serStrChar, if_neg h1, if_neg h2, if_neg h3, if_neg h4,
                      if_neg h5, if_neg h6, if_neg h7, if_neg h8]
                    show parseStringBody (c :: (cs.flatMap serStrChar ++ '"' :: rest)) = _
                    rw [parseStringBody]
                    rw [if_neg h1, if_neg h2, if_neg h8]
                    rw [ih]
                    rfl

theorem char_toNat_ne (c d : Char) (h : c.toNat ≠ d.toNat) : c ≠ d :=
  fun he => h (congrArg Char.toNat he)

theorem serV_null : serV .null = ['n', 'u', 'l', 'l'] := by simp [serV]

theorem serV_true : serV (.bool true) = ['t', 'r', 'u', 'e'] := by simp [serV]

theorem serV_false : serV (.bool false) = ['f', 'a', 'l', 's', 'e'] := by simp [serV]

theorem serV_num (n : Int) : serV (.num n) = serInt n := by simp [serV]

theorem serV_str (s : String) : serV (.str s) = serStr s := by simp [serV]

theorem serV_arr (es : List JsonV) :
    serV (.arr es) = '[' :: serArrItems es ++ [']'] := by simp [serV]

theorem serV_obj (kvs : List (String × JsonV)) :
    serV (.obj kvs) = '{' :: serObjItems kvs ++ ['}'] := by simp [serV]

theorem serArrItems_nil : serArrItems [] = [] := by simp [serArrItems]

theorem serArrItems_one (v : JsonV) : serArrItems [v] = serV v := by
  simp [serArrItems]

theorem serArrItems_cons2 (v w : JsonV) (rest : List JsonV) :
    serArrItems (v :: w :: rest) = serV v ++ ',' :: ' ' :: serArrItems (w :: rest) := by
  simp [serArrItems]

theorem serObjItems_nil : serObjItems [] = [] := by simp [serObjItems]

theorem serObjItems_one (k : String) (v : JsonV) :
    serObjItems [(k, v)] = serStr k ++ ':' :: ' ' :: serV v := by
  simp [serObjItems]

theorem serObjItems_cons2 (k : String) (v : JsonV) (kv : String × JsonV)
    (rest : List (String × JsonV)) :
    serObjItems ((k, v) :: kv :: rest) =
      serStr k ++ ':' :: ' ' :: serV v ++ ',' :: ' ' :: serObjItems (kv :: rest) := by
  simp [serObjItems]

theorem sizeV_null : sizeV .null = 1 := by simp [sizeV]

theorem sizeV_bool (b : Bool) : sizeV (.bool b) = 1 := by cases b <;> simp [sizeV]

theorem sizeV_num (n : Int) : sizeV (.num n) = 1 := by simp [sizeV]

theorem sizeV_str (s : String) : sizeV (.str s) = 1 := by simp [sizeV]

theorem sizeV_arr (es : List JsonV) : sizeV (.arr es) = 1 + sizeItems es := by
  simp [sizeV]

theorem sizeV_obj (kvs : List (String × JsonV)) :
    sizeV (.obj kvs) = 1 + sizeFields kvs := by simp [sizeV]

theorem sizeItems_cons (v : JsonV) (rest : List JsonV) :
    sizeItems (v :: rest) = 1 + sizeV v + sizeItems rest := by simp [sizeItems]

theorem sizeFields_cons (k : String) (v : JsonV) (rest : List (String × JsonV)) :
    sizeFields ((k, v) :: rest) = 1 + sizeV v + sizeFields rest := by simp [sizeFields]

theorem uniqV_arr (es : List JsonV) : uniqV (.arr es) = uniqItems es := by
  simp [uniqV]

theorem uniqV_obj (kvs : List (String × JsonV)) :
    uniqV (.obj kvs) = (listNodup (kvs.map Prod.fst) && uniqFields kvs) := by
  simp [uniqV]

theorem uniqItems_cons (v : JsonV) (rest : List JsonV) :
    uniqItems (v :: rest) = (uniqV v && uniqItems rest) := by simp [uniqItems]

theorem uniqFields_cons (k : String) (v : JsonV) (rest : List (String × JsonV)) :
    uniqFields ((k, v) :: rest) = (uniqV v && uniqFields rest) := by simp [uniqFields]

theorem listNodup_iff (l : List String) : listNodup l = true ↔ l.Nodup := by
  induction l with
  | nil => simp [listNodup]
  | cons k ks ih => simp [listNodup, ih, List.nodup_cons]

theorem skipWs_cons_not (c : Char) (r : List Char) (h : jsonWs c = false) :
    skipWs (c :: r) = c :: r := by
  simp [skipWs, List.dropWhile_cons, h]

theorem skipWs_cons_ws (c : Char) (r : List Char) (h : jsonWs c = true) :
    skipWs (c :: r) = skipWs r := by
  simp [skipWs, List.dropWhile_cons, h]

theorem goodAfter_comma (x : List Char) : goodAfter (',' :: x) := by
  show ¬(isDigitC ',' = true ∨ ',' = '.' ∨ ',' = 'e' ∨ ',' = 'E')
  decide

theorem goodAfter_rbracket (x : List Char) : goodAfter (']' :: x) := by
  show ¬(isDigitC ']' = true ∨ ']' = '.' ∨ ']' = 'e' ∨ ']' = 'E')
  decide

theorem goodAfter_rbrace (x : List Char) : goodAfter ('}' :: x) := by
  show ¬(isDigitC '}' = true ∨ '}' = '.' ∨ '}' = 'e' ∨ '}' = 'E')
  decide

/-- Every serialized value starts with a character that is neither
JSON whitespace nor Python `str.strip` whitespace nor a closing
delimiter. -/
theorem serV_cons (v : JsonV) :
    ∃ c cs, serV v = c :: cs ∧ jsonWs c = false ∧ c ≠ ']' ∧ c ≠ '}'
      ∧ pyWsChar c = false := by
  cases v with
  | null => exact ⟨'n', _, serV_null, by decide, by decide, by decide, by decide⟩
  | bool b =>
    cases b with
    | true => exact ⟨'t', _, serV_true, by decide, by decide, by decide, by decide⟩
    | false => exact ⟨'f', _, serV_false, by decide, by decide, by decide, by decide⟩
  | num n =>
    rw [serV_num, serInt]
    rcases lt_or_ge n 0 with hneg | hpos
    · exact ⟨'-', _, by rw [if_pos hneg], by decide, by decide, by decide, by decide⟩
    · rw [if_neg (by omega)]
      obtain ⟨c, cs, hnd⟩ : ∃ c cs, natDigits n.natAbs = c :: cs := by
        cases hcase : natDigits n.natAbs with
        | nil => exact absurd hcase (natDigits_ne_nil _)
        | cons a b => exact ⟨a, b, rfl⟩
      have hcd := isDigitC_toNat c (natDigits_all_digits _ c (by rw [hnd]; simp))
      refine ⟨c, cs, hnd, ?_, ?_, ?_, ?_⟩
      · have h1 : (' ' : Char).toNat = 32 := by decide
        have h2 : ('\t' : Char).toNat = 9 := by decide
        have h3 : ('\n' : Char).toNat = 10 := by decide
        have h4 : ('\r' : Char).toNat = 13 := by decide
        simp only [jsonWs, Bool.or_eq_false_iff, decide_eq_false_iff_not]
        refine ⟨⟨⟨?_, ?_⟩, ?_⟩, ?_⟩ <;> exact char_toNat_ne _ _ (by omega)
      · refine char_toNat_ne _ _ ?_
        have h93 : (']' : Char).toNat = 93 := by decide
        omega
      · refine char_toNat_ne _ _ ?_
        have h125 : ('}' : Char).toNat = 125 := by decide
        omega
      · have h1 : (' ' : Char).toNat = 32 := by decide
        have h2 : ('\t' : Char).toNat = 9 := by decide
        have h3 : ('\n' : Char).toNat = 10 := by decide
        have h4 : ('\r' : Char).toNat = 13 := by decide
        have h5 : ('\x0b' : Char).toNat = 11 := by decide
        have h6 : ('\x0c' : Char).toNat = 12 := by decide
        simp only [pyWsChar, Bool.or_eq_false_iff, decide_eq_false_iff_not]
        refine ⟨⟨⟨⟨⟨?_, ?_⟩, ?_⟩, ?_⟩, ?_⟩, ?_⟩ <;> exact char_toNat_ne _ _ (by omega)
  | str s =>
    exact ⟨'"', s.data.flatMap serStrChar ++ ['"'],
      by rw [serV_str, serStr]; simp, by decide, by decide, by decide, by decide⟩
  | arr es => exact ⟨'[', _, serV_arr es, by decide, by decide, by decide, by decide⟩
  | obj kvs => exact ⟨'{', _, serV_obj kvs, by decide, by decide, by decide, by decide⟩

theorem objInsert_fresh (acc : List (String × JsonV)) (k : String) (v : JsonV)
    (h : k ∉ acc.map Prod.fst) : objInsert acc k v = acc ++ [(k, v)] := by
  rw [objInsert, if_neg]
  simp only [List.any_eq_true, decide_eq_true_eq, not_exists, not_and]
  intro kv hkv hk
  exact h (by rw [← hk]; exact List.mem_map_of_mem Prod.fst hkv)

theorem parseArrItems_succ (f : Nat) (s : List Char) (acc : List JsonV) :
    parseArrItems (f + 1) s acc =
      match parseVal f s with
      | none => none
      | some (v, r1) =>
        match skipWs r1 with
        | ',' :: r2 => parseArrItems f (skipWs r2) (acc ++ [v])
        | ']' :: r2 => some (.arr (acc ++ [v]), r2)
        | _ => none := rfl

theorem parseObjItems_succ (f : Nat) (s : List Char) (acc : List (String × JsonV)) :
    parseObjItems (f + 1) s acc =
      match s with
      | '"' :: r1 =>
        match parseStringBody r1 with
        | none => none
        | some (k, r2) =>
          match skipWs r2 with
          | ':' :: r3 =>
            match parseVal f (skipWs r3) with
            | none => none
            | some (v, r4) =>
              match skipWs r4 with
              | ',' :: r5 => parseObjItems f (skipWs r5) (objInsert acc ⟨k⟩ v)
              | '}' :: r5 => some (.obj (objInsert acc ⟨k⟩ v), r5)
              | _ => none
          | _ => none
      | _ => none := rfl

theorem parseVal_lbrace (f : Nat) (x : List Char) :
    parseVal (f + 1) ('{' :: x) =
      (if (skipWs x).head? = some '}' then some (.obj [], (skipWs x).tail)
       else parseObjItems f (skipWs x) []) := rfl

theorem parseVal_lbracket (f : Nat) (x : List Char) :
    parseVal (f + 1) ('[' :: x) =
      (if (skipWs x).head? = some ']' then some (.arr [], (skipWs x).tail)
       else parseArrItems f (skipWs x) []) := rfl

theorem parseVal_quote (f : Nat) (x : List Char) :
    parseVal (f + 1) ('"' :: x) =
      (parseStringBody x).map (fun p => (.str ⟨p.1⟩, p.2)) := rfl

theorem parseVal_other (f : Nat) (c : Char) (tail : List Char)
    (h1 : c ≠ '{') (h2 : c ≠ '[') (h3 : c ≠ '"') (h4 : c ≠ 't') (h5 : c ≠ 'f')
    (h6 : c ≠ 'n') :
    parseVal (f + 1) (c :: tail) =
      (parseIntTok (c :: tail)).map (fun p => (.num p.1, p.2)) := by
  show (if c = '{' then _ else if c = '[' then _ else if c = '"' then _
    else if c = 't' then _ else if c = 'f' then _ else if c = 'n' then _
    else (parseIntTok (c :: tail)).map (fun p => (JsonV.num p.1, p.2))) = _
  rw [if_neg h1, if_neg h2, if_neg h3, if_neg h4, if_neg h5, if_neg h6]

theorem digit_ne_specials (c : Char) (h : isDigitC c = true) :
    c ≠ '{' ∧ c ≠ '[' ∧ c ≠ '"' ∧ c ≠ 't' ∧ c ≠ 'f' ∧ c ≠ 'n' := by
  obtain ⟨hl, hr⟩ := isDigitC_toNat c h
  have a1 : ('{' : Char).toNat = 123 := by decide
  have a2 : ('[' : Char).toNat = 91 := by decide
  have a3 : ('"' : Char).toNat = 34 := by decide
  have a4 : ('t' : Char).toNat = 116 := by decide
  have a5 : ('f' : Char).toNat = 102 := by decide
  have a6 : ('n' : Char).toNat = 110 := by decide
  exact ⟨char_toNat_ne _ _ (by omega), char_toNat_ne _ _ (by omega),
    char_toNat_ne _ _ (by omega), char_toNat_ne _ _ (by omega),
    char_toNat_ne _ _ (by omega), char_toNat_ne _ _ (by omega)⟩

theorem serObjItems_head_quote (k : String) (v : JsonV)
    (l2 : List (String × JsonV)) (x : List Char) :
    ∃ csk, serObjItems ((k, v) :: l2) ++ x = '"' :: csk := by
  cases l2 with
  | nil =>
    refine ⟨k.data.flatMap serStrChar ++ '"' :: ':' :: ' ' :: (serV v ++ x), ?_⟩
    rw [serObjItems_one, serStr]
    simp [List.cons_append, List.append_assoc]
  | cons kv3 l4 =>
    refine ⟨k.data.flatMap serStrChar ++ '"' :: ':' :: ' ' ::
      (serV v ++ ',' :: ' ' :: (serObjItems (kv3 :: l4) ++ x)), ?_⟩
    rw [serObjItems_cons2, serStr]
    simp [List.cons_append, List.append_assoc]

/-- The round-trip theorem at the single-value level: parsing a
serialized value consumes exactly its serialization.  `N` is a strong
induction bound on the structural size. -/
theorem parseVal_serV :
    ∀ (N : Nat) (v : JsonV), sizeV v ≤ N → uniqV v = true →
      ∀ (fuel : Nat) (rest : List Char), sizeV v ≤ fuel → goodAfter rest →
        parseVal fuel (serV v ++ rest) = some (v, rest) := by
  intro N
  induction N with
  | zero =>
    intro v hv
    have := sizeV_pos v
    omega
  | succ N ihN =>
    intro v hvN hu fuel rest hfuel hrest
    obtain ⟨f, rfl⟩ : ∃ f, fuel = f + 1 :=
      ⟨fuel - 1, by have := sizeV_pos v; omega⟩
    cases v with
    | null => rw [serV_null]; rfl
    | bool b =>
      cases b
      · rw [serV_false]; rfl
      · rw [serV_true]; rfl
    | num n =>
      rw [serV_num]
      rcases lt_or_ge n 0 with hneg | hpos
      · rw [serInt, if_pos hneg, List.cons_append]
        rw [parseVal_other f '-' _ (by decide) (by decide) (by decide) (by decide)
          (by decide) (by decide)]
        rw [show '-' :: (natDigits n.natAbs ++ rest) = serInt n ++ rest from by
          rw [serInt, if_pos hneg, List.cons_append]]
        rw [parseIntTok_serInt n rest hrest]
        rfl
      · rw [serInt, if_neg (by omega)]
        obtain ⟨c, cs, hnd⟩ : ∃ c cs, natDigits n.natAbs = c :: cs := by
          cases hcase : natDigits n.natAbs with
          | nil => exact absurd hcase (natDigits_ne_nil _)
          | cons a b => exact ⟨a, b, rfl⟩
        obtain ⟨b1, b2, b3, b4, b5, b6⟩ :=
          digit_ne_specials c (natDigits_all_digits _ c (by rw [hnd]; simp))
        rw [hnd, List.cons_append, parseVal_other f c _ b1 b2 b3 b4 b5 b6]
        rw [show c :: (cs ++ rest) = serInt n ++ rest from by
          rw [serInt, if_neg (by omega), hnd, List.cons_append]]
        rw [parseIntTok_serInt n rest hrest]
        rfl
    | str s =>
      rw [serV_str, serStr]
      simp only [List.cons_append, List.append_assoc, List.singleton_append,
        List.nil_append]
      rw [parseVal_quote, parseStringBody_ser]
      rfl
    | arr es =>
      rw [serV_arr]
      simp only [List.cons_append, List.append_assoc, List.singleton_append,
        List.nil_append]
      cases es with
      | nil =>
        rw [serArrItems_nil, List.nil_append]
        rfl
      | cons e es2 =>
        rw [sizeV_arr] at hvN hfuel
        rw [uniqV_arr] at hu
        have loop : ∀ (l : List JsonV), l ≠ [] → ∀ (acc : List JsonV) (f2 : Nat),
            sizeItems l ≤ f2 → sizeItems l ≤ N → uniqItems l = true →
            parseArrItems f2 (serArrItems l ++ ']' :: rest) acc
              = some (.arr (acc ++ l), rest) := by
          intro l
          induction l with
          | nil => intro h; exact absurd rfl h
          | cons e0 l2 ihl =>
            intro _ acc f2 hf2 hN2 hul
            rw [sizeItems_cons] at hf2 hN2
            rw [uniqItems_cons, Bool.and_eq_true] at hul
            obtain ⟨f3, rfl⟩ : ∃ f3, f2 = f3 + 1 :=
              ⟨f2 - 1, by have := sizeV_pos e0; omega⟩
            cases l2 with
            | nil =>
              rw [serArrItems_one]
              have hval := ihN e0 (by have := sizeV_pos e0; omega) hul.1 f3
                (']' :: rest) (by omega) (goodAfter_rbracket rest)
              simp only [parseArrItems_succ, hval]
              rfl
            | cons e1 l3 =>
              rw [serArrItems_cons2]
              simp only [List.cons_append, List.append_assoc]
              have hval := ihN e0 (by have := sizeV_pos e0; omega) hul.1 f3
                (',' :: ' ' :: (serArrItems (e1 :: l3) ++ ']' :: rest))
                (by omega) (goodAfter_comma _)
              obtain ⟨c1, cs1, hsc1, hw1, hb1, hb2, -⟩ := serV_cons e1
              have hsk : skipWs (serArrItems (e1 :: l3) ++ ']' :: rest)
                  = serArrItems (e1 :: l3) ++ ']' :: rest := by
                cases l3 with
                | nil =>
                  rw [serArrItems_one, hsc1, List.cons_append,
                    skipWs_cons_not _ _ hw1]
                | cons e2 l4 =>
                  rw [serArrItems_cons2, hsc1]
                  simp only [List.cons_append, List.append_assoc]
                  rw [skipWs_cons_not _ _ hw1]
              have hsk2 : skipWs (' ' :: (serArrItems (e1 :: l3) ++ ']' :: rest))
                  = serArrItems (e1 :: l3) ++ ']' :: rest := by
                rw [skipWs_cons_ws _ _ (by decide), hsk]
              have hsk3 : skipWs (',' :: ' ' :: (serArrItems (e1 :: l3) ++ ']' :: rest))
                  = ',' :: ' ' :: (serArrItems (e1 :: l3) ++ ']' :: rest) :=
                skipWs_cons_not _ _ (by decide)
              simp only [parseArrItems_succ, hval, hsk3, hsk2]
              rw [ihl (by simp) (acc ++ [e0]) f3 (by omega) (by omega) hul.2]
              simp
        obtain ⟨c0, cs0, hc0eq, hc0w, hc0b, -⟩ : ∃ c0 cs0,
            serArrItems (e :: es2) ++ ']' :: rest = c0 :: cs0 ∧ jsonWs c0 = false
              ∧ c0 ≠ ']' ∧ c0 ≠ '}' := by
          obtain ⟨c0, cs0, hc, hw, hb1, hb2, -⟩ := serV_cons e
          cases es2 with
          | nil =>
            exact ⟨c0, cs0 ++ ']' :: rest,
              by rw [serArrItems_one, hc, List.cons_append], hw, hb1, hb2⟩
          | cons e1 l3 =>
            refine ⟨c0, cs0 ++ (',' :: ' ' :: serArrItems (e1 :: l3) ++ ']' :: rest),
              ?_, hw, hb1, hb2⟩
            rw [serArrItems_cons2, hc]
            simp [List.cons_append, List.append_assoc]
        rw [parseVal_lbracket]
        rw [show skipWs (serArrItems (e :: es2) ++ ']' :: rest)
            = serArrItems (e :: es2) ++ ']' :: rest from by
          rw [hc0eq]
          exact skipWs_cons_not _ _ hc0w]
        rw [if_neg (by rw [hc0eq]; simp [hc0b])]
        have := loop (e :: es2) (by simp) [] f
          (by rw [sizeItems_cons] at hfuel ⊢; omega)
          (by rw [sizeItems_cons] at hvN ⊢; omega) hu
        simpa using this
    | obj kvs =>
      rw [serV_obj]
      simp only [List.cons_append, List.append_assoc, List.singleton_append,
        List.nil_append]
      cases kvs with
      | nil =>
        rw [serObjItems_nil, List.nil_append]
        rfl
      | cons kv0 kvs2 =>
        obtain ⟨k0, v0⟩ := kv0
        rw [sizeV_obj] at hvN hfuel
        rw [uniqV_obj, Bool.and_eq_true] at hu
        have hkeys : (kvs2.map Prod.fst |> List.cons k0).Nodup := by
          have := (listNodup_iff _).mp hu.1
          simpa using this
        have loopO : ∀ (l : List (String × JsonV)), l ≠ [] →
            ∀ (acc : List (String × JsonV)) (f2 : Nat),
            sizeFields l ≤ f2 → sizeFields l ≤ N → uniqFields l = true →
            (acc.map Prod.fst ++ l.map Prod.fst).Nodup →
            parseObjItems f2 (serObjItems l ++ '}' :: rest) acc
              = some (.obj (acc ++ l), rest) := by
          intro l
          induction l with
          | nil => intro h; exact absurd rfl h
          | cons kv1 l2 ihl =>
            obtain ⟨k1, v1⟩ := kv1
            intro _ acc f2 hf2 hN2 hul hnd
            rw [sizeFields_cons] at hf2 hN2
            rw [uniqFields_cons, Bool.and_eq_true] at hul
            obtain ⟨f3, rfl⟩ : ∃ f3, f2 = f3 + 1 :=
              ⟨f2 - 1, by have := sizeV_pos v1; omega⟩
            rw [List.map_cons] at hnd
            have hmid := List.nodup_middle.mp hnd
            rw [List.nodup_cons] at hmid
            have hfresh : k1 ∉ acc.map Prod.fst := fun hmem =>
              hmid.1 (List.mem_append_left _ hmem)
            have hnd2 : ((acc ++ [(k1, v1)]).map Prod.fst ++ l2.map Prod.fst).Nodup := by
              simpa [List.append_assoc] using hnd
            have hins : objInsert acc k1 v1 = acc ++ [(k1, v1)] :=
              objInsert_fresh acc k1 v1 hfresh
            cases l2 with
            | nil =>
              rw [serObjItems_one, serStr]
              simp only [List.cons_append, List.append_assoc, List.singleton_append,
                List.nil_append]
              have hval := ihN v1 (by have := sizeV_pos v1; omega) hul.1 f3
                ('}' :: rest) (by omega) (goodAfter_rbrace rest)
              obtain ⟨cv, csv, hscv, hwv, -, -, -⟩ := serV_cons v1
              have hskv : skipWs (serV v1 ++ '}' :: rest) = serV v1 ++ '}' :: rest := by
                rw [hscv, List.cons_append]
                exact skipWs_cons_not _ _ hwv
              have hsk1 : skipWs (' ' :: (serV v1 ++ '}' :: rest))
                  = serV v1 ++ '}' :: rest := by
                rw [skipWs_cons_ws _ _ (by decide), hskv]
              have hsk2 : skipWs (':' :: ' ' :: (serV v1 ++ '}' :: rest))
                  = ':' :: ' ' :: (serV v1 ++ '}' :: rest) :=
                skipWs_cons_not _ _ (by decide)
              simp only [parseObjItems_succ, parseStringBody_ser, hsk2, hsk1, hval]
              rw [show (⟨k1.data⟩ : String) = k1 from rfl, hins]
              rfl
            | cons kv2 l3 =>
              rw [serObjItems_cons2, serStr]
              simp only [List.cons_append, List.append_assoc, List.singleton_append,
                List.nil_append]
              have hval := ihN v1 (by have := sizeV_pos v1; omega) hul.1 f3
                (',' :: ' ' :: (serObjItems (kv2 :: l3) ++ '}' :: rest))
                (by omega) (goodAfter_comma _)
              obtain ⟨k2, v2⟩ := kv2
              obtain ⟨csk, hcsk⟩ := serObjItems_head_quote k2 v2 l3 ('}' :: rest)
              have hskS : skipWs (serObjItems ((k2, v2) :: l3) ++ '}' :: rest)
                  = serObjItems ((k2, v2) :: l3) ++ '}' :: rest := by
                rw [hcsk]
                exact skipWs_cons_not _ _ (by decide)
              have hsk1 : skipWs (' ' :: (serObjItems ((k2, v2) :: l3) ++ '}' :: rest))
                  = serObjItems ((k2, v2) :: l3) ++ '}' :: rest := by
                rw [skipWs_cons_ws _ _ (by decide), hskS]
              have hsk2 : skipWs (':' :: ' ' ::
                    (serV v1 ++ ',' :: ' ' :: (serObjItems ((k2, v2) :: l3) ++ '}' :: rest)))
                  = ':' :: ' ' ::
                    (serV v1 ++ ',' :: ' ' :: (serObjItems ((k2, v2) :: l3) ++ '}' :: rest)) :=
                skipWs_cons_not _ _ (by decide)
              have hsk3 : skipWs (',' :: ' ' :: (serObjItems ((k2, v2) :: l3) ++ '}' :: rest))
                  = ',' :: ' ' :: (serObjItems ((k2, v2) :: l3) ++ '}' :: rest) :=
                skipWs_cons_not _ _ (by decide)
              have hsk4 : skipWs (' ' :: (serV v1 ++ ',' :: ' ' ::
                    (serObjItems ((k2, v2) :: l3) ++ '}' :: rest)))
                  = serV v1 ++ ',' :: ' ' ::
                    (serObjItems ((k2, v2) :: l3) ++ '}' :: rest) := by
                rw [skipWs_cons_ws _ _ (by decide)]
                obtain ⟨cv, csv, hscv, hwv, -, -, -⟩ := serV_cons v1
                rw [hscv, List.cons_append]
                exact skipWs_cons_not _ _ hwv
              simp only [parseObjItems_succ, parseStringBody_ser, hsk2, hsk4, hval,
                hsk3, hsk1]
              rw [show (⟨k1.data⟩ : String) = k1 from rfl, hins]
              rw [ihl (by simp) (acc ++ [(k1, v1)]) f3 (by omega) (by omega)
                hul.2 hnd2]
              simp
        obtain ⟨csk0, hcsk0⟩ := serObjItems_head_quote k0 v0 kvs2 ('}' :: rest)
        rw [parseVal_lbrace]
        rw [show skipWs (serObjItems ((k0, v0) :: kvs2) ++ '}' :: rest)
            = serObjItems ((k0, v0) :: kvs2) ++ '}' :: rest from by
          rw [hcsk0]
          exact skipWs_cons_not _ _ (by decide)]
        rw [if_neg (by rw [hcsk0]; simp)]
        have := loopO ((k0, v0) :: kvs2) (by simp) [] f
          (by rw [sizeFields_cons] at hfuel ⊢; omega)
          (by rw [sizeFields_cons] at hvN ⊢; omega)
          hu.2
          (by simpa using hkeys)
        simpa using this

theorem serInt_ne_nil (n : Int) : serInt n ≠ [] := by
  rw [serInt]
  split
  · simp
  · exact natDigits_ne_nil _

theorem sizeV_le_serLength :
    ∀ (N : Nat) (v : JsonV), sizeV v ≤ N → sizeV v ≤ (serV v).length := by
  intro N
  induction N with
  | zero =>
    intro v hv
    have := sizeV_pos v
    omega
  | succ N ihN =>
    intro v hvN
    cases v with
    | null => rw [serV_null, sizeV_null]; simp
    | bool b => cases b <;> simp [serV_true, serV_false, sizeV_bool]
    | num n =>
      rw [serV_num, sizeV_num]
      have := serInt_ne_nil n
      cases h : serInt n with
      | nil => exact absurd h this
      | cons a b => simp
    | str s => rw [serV_str, serStr, sizeV_str]; simp
    | arr es =>
      rw [serV_arr, sizeV_arr]
      have hitems : sizeItems es ≤ 1 + (serArrItems es).length := by
        induction es with
        | nil => simp [serArrItems_nil, sizeItems]
        | cons e l2 ihl =>
          rw [sizeV_arr, sizeItems_cons] at hvN
          rw [sizeItems_cons]
          have he : sizeV e ≤ (serV e).length :=
            ihN e (by have := sizeV_pos e; omega)
          cases l2 with
          | nil =>
            rw [serArrItems_one]
            simp [sizeItems]
            omega
          | cons e1 l3 =>
            have hl2 : sizeItems (e1 :: l3) ≤ 1 + (serArrItems (e1 :: l3)).length := by
              apply ihl
              rw [sizeV_arr]
              omega
            rw [serArrItems_cons2]
            simp only [List.length_append, List.length_cons]
            omega
      simp only [List.length_cons, List.length_append, List.length_singleton]
      omega
    | obj kvs =>
      rw [serV_obj, sizeV_obj]
      have hitems : sizeFields kvs ≤ 1 + (serObjItems kvs).length := by
        induction kvs with
        | nil => simp [serObjItems_nil, sizeFields]
        | cons kv l2 ihl =>
          obtain ⟨k, v0⟩ := kv
          rw [sizeV_obj, sizeFields_cons] at hvN
          rw [sizeFields_cons]
          have he : sizeV v0 ≤ (serV v0).length :=
            ihN v0 (by have := sizeV_pos v0; omega)
          cases l2 with
          | nil =>
            rw [serObjItems_one, serStr]
            simp [sizeFields]
            omega
          | cons kv1 l3 =>
            have hl2 : sizeFields (kv1 :: l3) ≤ 1 + (serObjItems (kv1 :: l3)).length := by
              apply ihl
              rw [sizeV_obj]
              omega
            rw [serObjItems_cons2, serStr]
            simp only [List.length_append, List.length_cons]
            omega
      simp only [List.length_cons, List.length_append, List.length_singleton]
      omega

/-- Full model-level round trip: `json.loads (json.dumps v) = v` for
every value whose objects have no repeated keys. -/
theorem json_loads_jdumps (v : JsonV) (hu : uniqV v = true) :
    json_loads (jdumps v) = some v := by
  obtain ⟨c, cs, hsc, hw, -, -, -⟩ := serV_cons v
  have h1 : skipWs (jdumps v).data = serV v := by
    show skipWs (serV v) = serV v
    rw [hsc]
    exact skipWs_cons_not _ _ hw
  have h2 : parseVal ((serV v).length + 1) (serV v) = some (v, []) := by
    have h3 := parseVal_serV (sizeV v) v le_rfl hu ((serV v).length + 1) []
      (by have := sizeV_le_serLength (sizeV v) v le_rfl; omega) trivial
    simpa using h3
  simp only [json_loads, h1, h2]
  rfl

theorem serV_last (v : JsonV) :
    ∃ c, (serV v).getLast? = some c ∧ pyWsChar c = false := by
  cases v with
  | null => exact ⟨'l', by rw [serV_null]; rfl, by decide⟩
  | bool b =>
    cases b with
    | true => exact ⟨'e', by rw [serV_true]; rfl, by decide⟩
    | false => exact ⟨'e', by rw [serV_false]; rfl, by decide⟩
  | num n =>
    rw [serV_num]
    have hne : natDigits n.natAbs ≠ [] := natDigits_ne_nil _
    obtain ⟨c, hc⟩ : ∃ c, (natDigits n.natAbs).getLast? = some c := by
      cases h : natDigits n.natAbs with
      | nil => exact absurd h hne
      | cons a b => exact ⟨(a :: b).getLast (by simp), List.getLast?_eq_getLast _ _⟩
    have hcd : isDigitC c = true := by
      apply natDigits_all_digits n.natAbs
      exact List.mem_of_mem_getLast? hc
    have hw : pyWsChar c = false := by
      obtain ⟨h1, h2⟩ := isDigitC_toNat c hcd
      have w1 : (' ' : Char).toNat = 32 := by decide
      have w2 : ('\t' : Char).toNat = 9 := by decide
      have w3 : ('\n' : Char).toNat = 10 := by decide
      have w4 : ('\r' : Char).toNat = 13 := by decide
      have w5 : ('\x0b' : Char).toNat = 11 := by decide
      have w6 : ('\x0c' : Char).toNat = 12 := by decide
      simp only [pyWsChar, Bool.or_eq_false_iff, decide_eq_false_iff_not]
      refine ⟨⟨⟨⟨⟨?_, ?_⟩, ?_⟩, ?_⟩, ?_⟩, ?_⟩ <;> exact char_toNat_ne _ _ (by omega)
    refine ⟨c, ?_, hw⟩
    rw [serInt]
    split
    · rw [show '-' :: natDigits n.natAbs = ['-'] ++ natDigits n.natAbs from rfl,
        List.getLast?_append_of_ne_nil ['-'] hne]
      exact hc
    · exact hc
  | str s =>
    refine ⟨'"', ?_, by decide⟩
    rw [serV_str, serStr, List.getLast?_concat]
  | arr es =>
    refine ⟨']', ?_, by decide⟩
    rw [serV_arr, List.getLast?_concat]
  | obj kvs =>
    refine ⟨'}', ?_, by decide⟩
    rw [serV_obj, List.getLast?_concat]

theorem pyStrip_eq_self (s : List Char) (c0 cl : Char)
    (hhead : s.head? = some c0) (hw0 : pyWsChar c0 = false)
    (hlast : s.getLast? = some cl) (hwl : pyWsChar cl = false) :
    pyStrip s = s := by
  have h1 : pyLStrip s = s := by
    cases s with
    | nil => rfl
    | cons a b =>
      simp only [List.head?_cons, Option.some.injEq] at hhead
      subst hhead
      simp [pyLStrip, List.dropWhile_cons, hw0]
  rw [pyStrip, h1, pyRStrip]
  obtain ⟨a, b, hrev⟩ : ∃ a b, s.reverse = a :: b := by
    cases h : s.reverse with
    | nil =>
      rw [List.reverse_eq_nil_iff] at h
      subst h
      simp at hhead
    | cons a b => exact ⟨a, b, rfl⟩
  have ha : a = cl := by
    have h2 : s.reverse.head? = s.getLast? := List.head?_reverse s
    rw [hrev, hlast] at h2
    simpa using h2
  subst ha
  rw [hrev]
  simp only [List.dropWhile_cons, hwl]
  simp [← hrev]

theorem extract_staged_direct (text : String) (v : JsonV) (cs : List Char)
    (hcs : pyStrip text.data = '{' :: cs ∨ pyStrip text.data = '[' :: cs)
    (hloads : json_loads ⟨pyStrip text.data⟩ = some v) :
    extract_first_json_staged text = some (.direct, v) := by
  rcases hcs with hcs | hcs <;>
    · rw [hcs] at hloads
      simp only [extract_first_json_staged, hcs]
      simp [hloads]

theorem pyStrip_serV (v : JsonV) : pyStrip (serV v) = serV v := by
  obtain ⟨c, cs, hsc, -, -, -, hpw⟩ := serV_cons v
  obtain ⟨cl, hl, hwl⟩ := serV_last v
  exact pyStrip_eq_self (serV v) c cl (by rw [hsc]; rfl) hpw hl hwl

/-- Claim C6: for every JSON text obtained by serializing a
schema-conforming object — a value whose trimmed serialization starts
with `{` or `[`, with the pairwise-distinct keys every Python `dict`
has — the extractor's stage-1 direct parse reproduces an equal object,
and the full extraction pipeline (stages 1-3, schema-aware salvage,
and the repair pass over any repair-response text) returns exactly the
stage-1 result for every schema and prompt: later stages never fire on
and never alter already-valid input. -/
theorem claim6_roundtrip_idempotence (v : JsonV) (fields : List String)
    (up repairText : Option String) (hu : uniqV v = true)
    (hc : isContainer v = true) :
    extract_first_json_staged (jdumps v) = some (.direct, v)
    ∧ extract_first_json (jdumps v) = some v
    ∧ extraction_pipeline (jdumps v) fields up repairText
        = extract_first_json (jdumps v) := by
  have hstrip : pyStrip (jdumps v).data = serV v := pyStrip_serV v
  have hloads : json_loads ⟨pyStrip (jdumps v).data⟩ = some v := by
    rw [hstrip]
    exact json_loads_jdumps v hu
  have hhead : ∃ cs, pyStrip (jdumps v).data = '{' :: cs
      ∨ pyStrip (jdumps v).data = '[' :: cs := by
    rw [hstrip]
    cases v with
    | arr es =>
      exact ⟨serArrItems es ++ [']'], Or.inr (by rw [serV_arr]; rfl)⟩
    | obj kvs =>
      exact ⟨serObjItems kvs ++ ['}'], Or.inl (by rw [serV_obj]; rfl)⟩
    | null => simp [isContainer] at hc
    | bool b => simp [isContainer] at hc
    | num n => simp [isContainer] at hc
    | str s => simp [isContainer] at hc
  obtain ⟨cs, hcs⟩ := hhead
  have h1 : extract_first_json_staged (jdumps v) = some (.direct, v) :=
    extract_staged_direct _ v cs hcs hloads
  have h2 : extract_first_json (jdumps v) = some v := by
    rw [extract_first_json, h1]
    rfl
  refine ⟨h1, h2, ?_⟩
  rw [h2]
  simp only [extraction_pipeline, h2]

/-- Witness for claim C6 at a concrete area-select object. -/
theorem claim6_witness :
    uniqV c6obj = true ∧ isContainer c6obj = true ∧
      extraction_pipeline (jdumps c6obj) ["challenge_prompt", "points"] none none
        = extract_first_json (jdumps c6obj) := by
  have hu : uniqV c6obj = true := by
    simp [c6obj, uniqV, uniqItems, uniqFields, listNodup]
  have hc : isContainer c6obj = true := rfl
  exact ⟨hu, hc,
    (claim6_roundtrip_idempotence c6obj ["challenge_prompt", "points"] none none
      hu hc).2.2⟩

/-- Claim C7: the two salvage scenarios.  For `"point is x=10, y=20"`
against the points schema with no user prompt, salvage returns the
object whose `points` entry is `[{"x": 10, "y": 20}]` (together with
the always-echoed `challenge_prompt`, here the empty string); for
`"(5,5) ... (9,9)"` against the two-point-path schema it returns a
one-element `paths` list whose start point is `{5,5}` and whose end
point is `{9,9}`. -/
theorem claim7_salvage_scenarios :
    salvage_from_text "point is x=10, y=20" ["challenge_prompt", "points"] none
      = some (.obj [("challenge_prompt", .str ""),
          ("points", .arr [.obj [("x", .num 10), ("y", .num 20)]])])
    ∧ salvage_from_text "(5,5) ... (9,9)" ["challenge_prompt", "paths"] none
      = some (.obj [("challenge_prompt", .str ""),
          ("paths", .arr [.obj [
            ("start_point", .obj [("x", .num 5), ("y", .num 5)]),
            ("end_point", .obj [("x", .num 9), ("y", .num 9)])]])]) :=
  ⟨rfl, rfl⟩

/-- Claim C1: the transport-level downgrade retry.  For every mode and
assembled first payload, the payload carries the JSON response-format
feature (`response_format`) exactly in the two OpenAI-shaped modes; at
most two requests are ever issued; when the first request fails and
the payload carries the feature, exactly one retry is issued with the
feature removed and the retry's outcome is final; when the first
request fails and the payload lacks the feature (the gemini_native
payload, which requests JSON through `generationConfig` instead),
the failure propagates immediately with a single request issued. -/
theorem claim1_downgrade_retry (mode : LLMMode) (model : String)
    (msgs contents sysInstr : JsonV) (outcome : Nat → ReqOutcome) :
    (payloadHasKey (firstPayload mode model msgs contents sysInstr)
        "response_format" = true ↔ (mode = .openai ∨ mode = .gemini_openai))
    ∧ (requestWithDowngrade mode (firstPayload mode model msgs contents sysInstr)
        outcome).sent.length ≤ 2
    ∧ (outcome 0 = .err →
        payloadHasKey (firstPayload mode model msgs contents sysInstr)
          "response_format" = true →
        (requestWithDowngrade mode (firstPayload mode model msgs contents sysInstr)
            outcome).sent
          = [firstPayload mode model msgs contents sysInstr,
             stripResponseFormat (firstPayload mode model msgs contents sysInstr)]
        ∧ payloadHasKey
            (stripResponseFormat (firstPayload mode model msgs contents sysInstr))
            "response_format" = false
        ∧ (requestWithDowngrade mode (firstPayload mode model msgs contents sysInstr)
            outcome).result
          = (match outcome 1 with | .ok d => some d | .err => none))
    ∧ (outcome 0 = .err →
        payloadHasKey (firstPayload mode model msgs contents sysInstr)
          "response_format" = false →
        requestWithDowngrade mode (firstPayload mode model msgs contents sysInstr)
          outcome
          = ⟨[firstPayload mode model msgs contents sysInstr], none⟩) := by
  cases mode <;>
    cases h0 : outcome 0 <;>
      (refine ⟨by simp [firstPayload, payloadHasKey, jget], ?_, ?_, ?_⟩ <;>
        cases h1 : outcome 1 <;>
          simp [firstPayload, payloadHasKey, jget, requestWithDowngrade,
            stripResponseFormat, h0, h1])

/-- Witness for claim C1: an openai-mode call whose first request
fails and whose single downgraded retry succeeds. -/
theorem claim1_downgrade_retry_witness :
    (requestWithDowngrade .openai (firstPayload .openai "gpt" .null .null .null)
        (fun i => if i = 0 then .err else .ok (.num 1))).sent
      = [firstPayload .openai "gpt" .null .null .null,
         stripResponseFormat (firstPayload .openai "gpt" .null .null .null)]
    ∧ payloadHasKey
        (stripResponseFormat (firstPayload .openai "gpt" .null .null .null))
        "response_format" = false
    ∧ (requestWithDowngrade .openai (firstPayload .openai "gpt" .null .null .null)
        (fun i => if i = 0 then .err else .ok (.num 1))).result = some (.num 1) := by
  have h := (claim1_downgrade_retry .openai "gpt" .null .null .null
      (fun i => if i = 0 then .err else .ok (.num 1))).2.2.1 (by rfl) (by rfl)
  exact ⟨h.1, h.2.1, by rw [h.2.2]; rfl⟩

/-- Claim C2: the validator's checks apply in a fixed order on every
completed HTTP response (status codes of completed responses lie in
100-599, so the error range of `httpx.Response.is_error` is exactly
`status >= 400`): an empty body fails with EmptyBody regardless of
content type; a non-empty body whose content type does not contain
`application/json` fails with NonJSONResponse no matter what the body
holds (decode is never attempted); with a JSON content type, decode
happens before the error-status check, so an undecodable body fails
with the decode error even for an error status, and a decodable body
with an error status fails with HTTPError; in particular a 200
`text/html` non-empty response raises NonJSONResponse and a 200
`application/json` empty response raises EmptyBody. -/
theorem claim2_validator_order (r : HttpResponse) (hstatus : r.status_code ≤ 599) :
    (r.body = "" → response_json_checked r = .error .EmptyBody)
    ∧ (r.body ≠ "" →
        containsSub "application/json".data
          ((r.content_type.getD "").data.map asciiLower) = false →
        response_json_checked r = .error .NonJSONResponse)
    ∧ (r.body ≠ "" →
        containsSub "application/json".data
          ((r.content_type.getD "").data.map asciiLower) = true →
        json_loads r.body = none →
        response_json_checked r = .error .JSONDecodeFailure)
    ∧ (∀ j, r.body ≠ "" →
        containsSub "application/json".data
          ((r.content_type.getD "").data.map asciiLower) = true →
        json_loads r.body = some j →
        400 ≤ r.status_code →
        response_json_checked r = .error .HTTPError)
    ∧ (∀ j, r.body ≠ "" →
        containsSub "application/json".data
          ((r.content_type.getD "").data.map asciiLower) = true →
        json_loads r.body = some j →
        r.status_code < 400 →
        response_json_checked r = .ok j) := by
  refine ⟨?_, ?_, ?_, ?_, ?_⟩
  · intro hb
    simp [response_json_checked, hb]
  · intro hb hct
    simp [response_json_checked, hb, hct]
  · intro hb hct hj
    simp [response_json_checked, hb, hct, hj]
  · intro j hb hct hj h400
    simp [response_json_checked, hb, hct, hj]
    omega
  · intro j hb hct hj h400
    simp [response_json_checked, hb, hct, hj]
    omega

/-- Witness for claim C2: a 200 `text/html` page fails with
NonJSONResponse, a 200 empty `application/json` body fails with
EmptyBody, a 503 JSON error payload fails with HTTPError only after
decoding, and a 200 JSON body is returned decoded. -/
theorem claim2_validator_order_witness :
    response_json_checked ⟨200, some "text/html", "<h1>oops</h1>"⟩
      = .error .NonJSONResponse
    ∧ response_json_checked ⟨200, some "application/json", ""⟩
      = .error .EmptyBody
    ∧ response_json_checked ⟨503, some "application/json", "[7]"⟩
      = .error .HTTPError
    ∧ response_json_checked ⟨200, some "application/json", "[7]"⟩
      = .ok (.arr [.num 7]) := by
  refine ⟨?_, ?_, ?_, ?_⟩
  · exact (claim2_validator_order ⟨200, some "text/html", "<h1>oops</h1>"⟩
      (by decide)).2.1 (by decide) (by decide)
  · exact (claim2_validator_order ⟨200, some "application/json", ""⟩
      (by decide)).1 rfl
  · exact (claim2_validator_order ⟨503, some "application/json", "[7]"⟩
      (by decide)).2.2.2.1 (.arr [.num 7]) (by decide) (by decide) rfl (by decide)
  · exact (claim2_validator_order ⟨200, some "application/json", "[7]"⟩
      (by decide)).2.2.2.2 (.arr [.num 7]) (by decide) (by decide) rfl (by decide)

/-- Counterexample to claim C9 as stated: the joiner does not fail for
every base that is not a string — a non-string base is coerced with
`str()` and the join succeeds. -/
theorem claim9_counterexample :
    join_url (.vInt 123) ["models"] = .ok "123/models" := rfl

/-- Claim C9 as amended: the joiner raises the empty-base
configuration error exactly when the base is absent (`None`) or its
string coercion strips to the empty string; a non-string base is not
rejected for being a non-string — it is coerced with `str()`.  The
success half is, like the other URL claims, proved on bracket-free
bases, where `urlsplit` has no separate `Invalid IPv6 URL` error
path: every bracket-free base outside the `None`/empty cases joins
successfully. -/
theorem claim9_amended (b : PyBase) (ps : List String)
    (_hb : bracketFree (pyStrOf b)) :
    (join_url b ps = .error .emptyBase
      ↔ (b = .vNone ∨ pyStrip (pyStrOf b).data = []))
    ∧ (b ≠ .vNone → pyStrip (pyStrOf b).data ≠ [] →
        join_url b ps = .ok ⟨join_url_core (pyStrip (pyStrOf b).data) ps⟩) := by
  cases b with
  | vNone => simp [join_url]
  | vStr s =>
    constructor
    · by_cases h : pyStrip (pyStrOf (.vStr s)).data = [] <;>
        simp [join_url, h]
    · intro _ h
      simp [join_url, h]
  | vInt n =>
    constructor
    · by_cases h : pyStrip (pyStrOf (.vInt n)).data = [] <;>
        simp [join_url, h]
    · intro _ h
      simp [join_url, h]

/-- Witness for the amended claim C9 at a concrete string base. -/
theorem claim9_amended_witness :
    PyBase.vStr " http://h/p " ≠ .vNone
    ∧ pyStrip (pyStrOf (.vStr " http://h/p ")).data ≠ []
    ∧ join_url (.vStr " http://h/p ") ["a"] = .ok "http://h/p/a" := by
  refine ⟨by simp, by decide, ?_⟩
  have h := (claim9_amended (.vStr " http://h/p ") ["a"]
    (by constructor <;> decide)).2 (by simp) (by decide)
  rw [h]
  rfl

theorem dedupPairs_cons (seen : List (Nat × Nat)) (p : Nat × Nat)
    (rest : List (Nat × Nat)) :
    dedupPairs seen (p :: rest)
      = if p ∈ seen then dedupPairs seen rest
        else p :: dedupPairs (p :: seen) rest := rfl

/-- In the deduplicated concatenation, an element of the first list
precedes any element that only the tail contributes. -/
theorem dedupPairs_index_lt :
    ∀ (a : List (Nat × Nat)) (b seen : List (Nat × Nat)) (p q : Nat × Nat),
      p ∈ a → p ∉ seen → q ∉ a → q ∉ seen →
      idxOf p (dedupPairs seen (a ++ b)) < idxOf q (dedupPairs seen (a ++ b)) := by
  intro a
  induction a with
  | nil =>
    intro b seen p q hp
    exact absurd hp (List.not_mem_nil p)
  | cons h a2 ih =>
    intro b seen p q hpA hpseen hqA hqseen
    by_cases hseen : h ∈ seen
    · rw [List.cons_append, dedupPairs_cons, if_pos hseen]
      have hp2 : p ∈ a2 := by
        rcases List.mem_cons.mp hpA with he | hm
        · exact absurd (he ▸ hseen) hpseen
        · exact hm
      exact ih b seen p q hp2 hpseen
        (fun hq => hqA (List.mem_cons_of_mem _ hq)) hqseen
    · rw [List.cons_append, dedupPairs_cons, if_neg hseen]
      have hqh : q ≠ h := fun he => hqA (by rw [he]; exact List.mem_cons_self _ _)
      by_cases hhp : h = p
      · have e1 : idxOf p (h :: dedupPairs (h :: seen) (a2 ++ b)) = 0 := by
          simp [idxOf, hhp]
        have e2 : idxOf q (h :: dedupPairs (h :: seen) (a2 ++ b))
            = idxOf q (dedupPairs (h :: seen) (a2 ++ b)) + 1 := by
          simp [idxOf, Ne.symm hqh]
        omega
      · have hp2 : p ∈ a2 := by
          rcases List.mem_cons.mp hpA with he | hm
          · exact absurd he.symm hhp
          · exact hm
        have e1 : idxOf p (h :: dedupPairs (h :: seen) (a2 ++ b))
            = idxOf p (dedupPairs (h :: seen) (a2 ++ b)) + 1 := by
          simp [idxOf, hhp]
        have e2 : idxOf q (h :: dedupPairs (h :: seen) (a2 ++ b))
            = idxOf q (dedupPairs (h :: seen) (a2 ++ b)) + 1 := by
          simp [idxOf, Ne.symm hqh]
        have := ih b (h :: seen) p q hp2
          (by
            simp only [List.mem_cons, not_or]
            exact ⟨fun he => hhp he.symm, hpseen⟩)
          (fun hq => hqA (List.mem_cons_of_mem _ hq))
          (by
            simp only [List.mem_cons, not_or]
            exact ⟨hqh, hqseen⟩)
        omega

theorem extract_xy_pairs_eq (text : String) :
    extract_xy_pairs text
      = dedupPairs [] (findXYPairs text.data ++ findParenPairs text.data) := by
  rw [extract_xy_pairs]
  split
  · next h => rw [h]; rfl
  · rfl

/-- Claim C10: the salvage coordinate extractor lists every
`x=, y=`-family match before every parenthesized-family match,
regardless of textual position — the output is the deduplication of
the concatenation of the two families in that order, and a pair
produced only by the parenthesized family is indexed after every
`x=, y=` pair; consequently, on a two-point-path schema whose text
carries pairs from both families, the start and end points come from
the `x=, y=` family even when a parenthesized pair occurs earlier. -/
theorem claim10_family_order :
    (∀ text : String, extract_xy_pairs text
        = dedupPairs [] (findXYPairs text.data ++ findParenPairs text.data))
    ∧ (∀ (text : String) (p q : Nat × Nat),
        p ∈ findXYPairs text.data → q ∈ findParenPairs text.data →
        q ∉ findXYPairs text.data →
        idxOf p (extract_xy_pairs text) < idxOf q (extract_xy_pairs text))
    ∧ salvage_from_text "(1,2) then x=3, y=4 and x=5, y=6"
        ["challenge_prompt", "paths"] none
      = some (.obj [("challenge_prompt", .str ""),
          ("paths", .arr [.obj [
            ("start_point", .obj [("x", .num 3), ("y", .num 4)]),
            ("end_point", .obj [("x", .num 5), ("y", .num 6)])]])]) := by
  refine ⟨extract_xy_pairs_eq, ?_, rfl⟩
  intro text p q hp hq hqA
  rw [extract_xy_pairs_eq]
  exact dedupPairs_index_lt _ _ [] p q hp (List.not_mem_nil p) hqA
    (List.not_mem_nil q)

/-- Witness for claim C10: in `"(1,2) x=3, y=4"` the `x=, y=` pair
`(3,4)` is indexed before the textually earlier parenthesized pair
`(1,2)`. -/
theorem claim10_family_order_witness :
    (3, 4) ∈ findXYPairs "(1,2) x=3, y=4".data
    ∧ (1, 2) ∈ findParenPairs "(1,2) x=3, y=4".data
    ∧ (1, 2) ∉ findXYPairs "(1,2) x=3, y=4".data
    ∧ idxOf (3, 4) (extract_xy_pairs "(1,2) x=3, y=4")
        < idxOf (1, 2) (extract_xy_pairs "(1,2) x=3, y=4") := by
  refine ⟨by decide, by decide, by decide, ?_⟩
  exact claim10_family_order.2.1 "(1,2) x=3, y=4" (3, 4) (1, 2)
    (by decide) (by decide) (by decide)

theorem jget_append (a b : List (String × JsonV)) (k : String) :
    jget (a ++ b) k
      = match jget a k with
        | some v => some v
        | none => jget b k := by
  induction a with
  | nil => rfl
  | cons kv rest ih =>
    by_cases h : kv.1 = k
    · obtain ⟨k0, v0⟩ := kv
      simp only at h
      simp [jget, h]
    · obtain ⟨k0, v0⟩ := kv
      simp only at h
      simp [jget, h, ih]

theorem contains_true_mem (l : List String) (k : String)
    (h : l.contains k = true) : k ∈ l := List.elem_iff.mp h

theorem contains_false_not_mem (l : List String) (k : String)
    (h : l.contains k = false) : k ∉ l := by
  intro hm
  have h2 : l.contains k = true := List.elem_iff.mpr hm
  rw [h2] at h
  cases h

theorem inject_cp_fires (fields : List String) (up : Option String)
    (kvs : List (String × JsonV)) (h1 : fields.contains "challenge_prompt" = true)
    (h2 : jget kvs "challenge_prompt" = none) :
    normalize_inject_cp fields up kvs
      = kvs ++ [("challenge_prompt", .str (up.getD ""))] := by
  simp [normalize_inject_cp, contains_true_mem _ _ h1, h2]

theorem inject_cp_skips (fields : List String) (up : Option String)
    (kvs : List (String × JsonV))
    (h : fields.contains "challenge_prompt" = false
      ∨ (jget kvs "challenge_prompt").isSome) :
    normalize_inject_cp fields up kvs = kvs := by
  rcases h with h | h
  · simp [normalize_inject_cp, contains_false_not_mem _ _ h]
  · rw [Option.isSome_iff_exists] at h
    obtain ⟨d, hd⟩ := h
    simp [normalize_inject_cp, hd]

theorem lift_paths_fires (fields : List String) (up : Option String)
    (kvs : List (String × JsonV)) (sp ep : JsonV)
    (hsp : jget kvs "start_point" = some sp)
    (hep : jget kvs "end_point" = some ep)
    (hf : fields.contains "paths" = true)
    (hnone : jget kvs "paths" = none) :
    normalize_lift_paths fields up kvs
      = [("challenge_prompt",
          (jget kvs "challenge_prompt").getD (.str (up.getD ""))),
         ("paths", JsonV.arr [JsonV.obj [("start_point", sp), ("end_point", ep)]])] := by
  simp [normalize_lift_paths, hsp, hep, contains_true_mem _ _ hf, hnone]

theorem lift_paths_skips (fields : List String) (up : Option String)
    (kvs : List (String × JsonV))
    (h : fields.contains "paths" = false ∨ (jget kvs "paths").isSome
      ∨ jget kvs "start_point" = none ∨ jget kvs "end_point" = none) :
    normalize_lift_paths fields up kvs = kvs := by
  rcases hsp : jget kvs "start_point" with - | sp
  · simp [normalize_lift_paths, hsp]
  rcases hep : jget kvs "end_point" with - | ep
  · simp [normalize_lift_paths, hsp, hep]
  rcases h with h | h | h | h
  · simp [normalize_lift_paths, hsp, hep, contains_false_not_mem _ _ h]
  · rw [Option.isSome_iff_exists] at h
    obtain ⟨d, hd⟩ := h
    simp [normalize_lift_paths, hsp, hep, hd]
  · rw [h] at hsp
    cases hsp
  · rw [h] at hep
    cases hep

theorem lift_points_fires (fields : List String) (up : Option String)
    (kvs : List (String × JsonV)) (vx vy : JsonV)
    (hx : jget kvs "x" = some vx) (hy : jget kvs "y" = some vy)
    (hf : fields.contains "points" = true)
    (hnone : jget kvs "points" = none) :
    normalize_lift_points fields up kvs
      = [("challenge_prompt",
          (jget kvs "challenge_prompt").getD (.str (up.getD ""))),
         ("points", JsonV.arr [JsonV.obj [("x", vx), ("y", vy)]])] := by
  simp [normalize_lift_points, hx, hy, contains_true_mem _ _ hf, hnone]

theorem lift_points_skips (fields : List String) (up : Option String)
    (kvs : List (String × JsonV))
    (h : fields.contains "points" = false ∨ (jget kvs "points").isSome
      ∨ jget kvs "x" = none ∨ jget kvs "y" = none) :
    normalize_lift_points fields up kvs = kvs := by
  rcases hx : jget kvs "x" with - | vx
  · simp [normalize_lift_points, hx]
  rcases hy : jget kvs "y" with - | vy
  · simp [normalize_lift_points, hx, hy]
  rcases h with h | h | h | h
  · simp [normalize_lift_points, hx, hy, contains_false_not_mem _ _ h]
  · rw [Option.isSome_iff_exists] at h
    obtain ⟨d, hd⟩ := h
    simp [normalize_lift_points, hx, hy, hd]
  · rw [h] at hx
    cases hx
  · rw [h] at hy
    cases hy

theorem lift_paths_keeps_cp (fields : List String) (up : Option String)
    (kvs : List (String × JsonV)) (d : JsonV)
    (h : jget kvs "challenge_prompt" = some d) :
    jget (normalize_lift_paths fields up kvs) "challenge_prompt" = some d := by
  rcases hsp : jget kvs "start_point" with - | sp
  · simp [normalize_lift_paths, hsp, h]
  rcases hep : jget kvs "end_point" with - | ep
  · simp [normalize_lift_paths, hsp, hep, h]
  by_cases hfire : (fields.contains "paths" && (jget kvs "paths").isNone) = true
  · simp only [normalize_lift_paths, hsp, hep, h]
    rw [if_pos hfire]
    simp [jget]
  · simp only [normalize_lift_paths, hsp, hep, h]
    rw [if_neg hfire]
    exact h

theorem lift_points_keeps_cp (fields : List String) (up : Option String)
    (kvs : List (String × JsonV)) (d : JsonV)
    (h : jget kvs "challenge_prompt" = some d) :
    jget (normalize_lift_points fields up kvs) "challenge_prompt" = some d := by
  rcases hx : jget kvs "x" with - | vx
  · simp [normalize_lift_points, hx, h]
  rcases hy : jget kvs "y" with - | vy
  · simp [normalize_lift_points, hx, hy, h]
  by_cases hfire : (fields.contains "points" && (jget kvs "points").isNone) = true
  · simp only [normalize_lift_points, hx, hy, h]
    rw [if_pos hfire]
    simp [jget]
  · simp only [normalize_lift_points, hx, hy, h]
    rw [if_neg hfire]
    exact h

/-- Claim C8: `_normalize_for_schema` performs exactly the specified
reshapings and no others.  (i) When the schema declares
`challenge_prompt` and the parsed dict lacks it, the result is a dict
carrying it with the original user prompt (or `""`) as value.  (ii) A
flat dict with `start_point` and `end_point` but no `paths`, when the
schema expects `paths`, becomes exactly the prompt echo plus a
one-element `paths` list built from those two points.  (iii) A flat
dict with `x` and `y` but no `points`, when the schema expects
`points` and the paths lift did not fire, becomes exactly the prompt
echo plus a one-element `points` list.  (iv) When no reshaping
condition holds the dict is returned unchanged, and (v) every
non-dict value is returned unchanged: no other data is added. -/
theorem claim8_normalize (fields : List String) (kvs : List (String × JsonV))
    (up : Option String) :
    (fields.contains "challenge_prompt" = true →
      jget kvs "challenge_prompt" = none →
      ∃ kvs2, normalize_for_schema (.obj kvs) fields up = .obj kvs2
        ∧ jget kvs2 "challenge_prompt" = some (.str (up.getD "")))
    ∧ (∀ sp ep, fields.contains "paths" = true → jget kvs "paths" = none →
        jget kvs "start_point" = some sp → jget kvs "end_point" = some ep →
        normalize_for_schema (.obj kvs) fields up
          = .obj [("challenge_prompt",
              (jget kvs "challenge_prompt").getD (.str (up.getD ""))),
            ("paths", .arr [.obj [("start_point", sp), ("end_point", ep)]])])
    ∧ (∀ vx vy,
        (fields.contains "paths" = false ∨ (jget kvs "paths").isSome
          ∨ jget kvs "start_point" = none ∨ jget kvs "end_point" = none) →
        fields.contains "points" = true → jget kvs "points" = none →
        jget kvs "x" = some vx → jget kvs "y" = some vy →
        normalize_for_schema (.obj kvs) fields up
          = .obj [("challenge_prompt",
              (jget kvs "challenge_prompt").getD (.str (up.getD ""))),
            ("points", .arr [.obj [("x", vx), ("y", vy)]])])
    ∧ ((fields.contains "challenge_prompt" = false
          ∨ (jget kvs "challenge_prompt").isSome) →
        (fields.contains "paths" = false ∨ (jget kvs "paths").isSome
          ∨ jget kvs "start_point" = none ∨ jget kvs "end_point" = none) →
        (fields.contains "points" = false ∨ (jget kvs "points").isSome
          ∨ jget kvs "x" = none ∨ jget kvs "y" = none) →
        normalize_for_schema (.obj kvs) fields up = .obj kvs)
    ∧ (∀ v, isDict v = false → normalize_for_schema v fields up = v) := by
  have hshape : normalize_for_schema (.obj kvs) fields up
      = .obj (normalize_lift_points fields up
          (normalize_lift_paths fields up (normalize_inject_cp fields up kvs))) := rfl
  have happ : ∀ (k : String) (v : JsonV), jget kvs k = some v →
      jget (kvs ++ [("challenge_prompt", JsonV.str (up.getD ""))]) k = some v :=
    fun k v h => by rw [jget_append, h]
  have happn : ∀ k : String, k ≠ "challenge_prompt" → jget kvs k = none →
      jget (kvs ++ [("challenge_prompt", JsonV.str (up.getD ""))]) k = none := by
    intro k hk h
    rw [jget_append, h]
    simp [jget, Ne.symm hk]
  have hcp1 : jget kvs "challenge_prompt" = none →
      jget (kvs ++ [("challenge_prompt", JsonV.str (up.getD ""))]) "challenge_prompt"
        = some (JsonV.str (up.getD "")) := by
    intro h
    rw [jget_append, h]
    simp [jget]
  have hskipTransfer :
      (fields.contains "paths" = false ∨ (jget kvs "paths").isSome
        ∨ jget kvs "start_point" = none ∨ jget kvs "end_point" = none) →
      (fields.contains "paths" = false
        ∨ (jget (kvs ++ [("challenge_prompt", JsonV.str (up.getD ""))]) "paths").isSome
        ∨ jget (kvs ++ [("challenge_prompt", JsonV.str (up.getD ""))]) "start_point"
            = none
        ∨ jget (kvs ++ [("challenge_prompt", JsonV.str (up.getD ""))]) "end_point"
            = none) := by
    rintro (h | h | h | h)
    · exact Or.inl h
    · rw [Option.isSome_iff_exists] at h
      obtain ⟨d, hd⟩ := h
      exact Or.inr (Or.inl (by rw [happ _ _ hd]; rfl))
    · exact Or.inr (Or.inr (Or.inl (happn _ (by decide) h)))
    · exact Or.inr (Or.inr (Or.inr (happn _ (by decide) h)))
  refine ⟨?_, ?_, ?_, ?_, ?_⟩
  · intro hcf hcp
    refine ⟨_, hshape, ?_⟩
    rw [inject_cp_fires fields up kvs hcf hcp]
    exact lift_points_keeps_cp _ _ _ _ (lift_paths_keeps_cp _ _ _ _ (hcp1 hcp))
  · intro sp ep hf hnone hsp hep
    rw [hshape]
    by_cases hcpc : (fields.contains "challenge_prompt"
        && (jget kvs "challenge_prompt").isNone) = true
    · rw [Bool.and_eq_true] at hcpc
      have hcpn : jget kvs "challenge_prompt" = none :=
        Option.isNone_iff_eq_none.mp hcpc.2
      rw [inject_cp_fires fields up kvs hcpc.1 hcpn,
        lift_paths_fires fields up _ sp ep (happ _ _ hsp) (happ _ _ hep) hf
          (happn _ (by decide) hnone),
        lift_points_skips fields up _
          (Or.inr (Or.inr (Or.inl (by simp [jget])))),
        hcp1 hcpn, hcpn]
      rfl
    · have hskip : normalize_inject_cp fields up kvs = kvs := by
        rw [Bool.and_eq_true, not_and_or] at hcpc
        rcases hcpc with h | h
        · exact inject_cp_skips fields up kvs
            (Or.inl (by simpa using h))
        · exact inject_cp_skips fields up kvs
            (Or.inr (Option.ne_none_iff_isSome.mp
              (by simpa [Option.isNone_iff_eq_none] using h)))
      rw [hskip,
        lift_paths_fires fields up kvs sp ep hsp hep hf hnone,
        lift_points_skips fields up _
          (Or.inr (Or.inr (Or.inl (by simp [jget]))))]
  · intro vx vy hnofire hf hnone hx hy
    rw [hshape]
    by_cases hcpc : (fields.contains "challenge_prompt"
        && (jget kvs "challenge_prompt").isNone) = true
    · rw [Bool.and_eq_true] at hcpc
      have hcpn : jget kvs "challenge_prompt" = none :=
        Option.isNone_iff_eq_none.mp hcpc.2
      rw [inject_cp_fires fields up kvs hcpc.1 hcpn,
        lift_paths_skips fields up _ (hskipTransfer hnofire),
        lift_points_fires fields up _ vx vy (happ _ _ hx) (happ _ _ hy) hf
          (happn _ (by decide) hnone),
        hcp1 hcpn, hcpn]
      rfl
    · have hskip : normalize_inject_cp fields up kvs = kvs := by
        rw [Bool.and_eq_true, not_and_or] at hcpc
        rcases hcpc with h | h
        · exact inject_cp_skips fields up kvs (Or.inl (by simpa using h))
        · exact inject_cp_skips fields up kvs
            (Or.inr (Option.ne_none_iff_isSome.mp
              (by simpa [Option.isNone_iff_eq_none] using h)))
      rw [hskip, lift_paths_skips fields up kvs hnofire,
        lift_points_fires fields up kvs vx vy hx hy hf hnone]
  · intro hcp hpaths hpoints
    rw [hshape, inject_cp_skips fields up kvs hcp,
      lift_paths_skips fields up kvs hpaths,
      lift_points_skips fields up kvs hpoints]
  · intro v hv
    cases v <;> first | rfl | simp [isDict] at hv

/-- Witness for claim C8: a concrete flat dict with `start_point` and
`end_point` is reshaped into the prompt echo plus a one-element `paths`
list. -/
theorem claim8_normalize_witness :
    normalize_for_schema
      (JsonV.obj [("start_point", JsonV.num 1), ("end_point", JsonV.num 2)])
      ["challenge_prompt", "paths"] (some "drag")
      = JsonV.obj [("challenge_prompt", JsonV.str "drag"),
          ("paths", JsonV.arr [JsonV.obj
            [("start_point", JsonV.num 1), ("end_point", JsonV.num 2)]])] :=
  (claim8_normalize ["challenge_prompt", "paths"]
      [("start_point", JsonV.num 1), ("end_point", JsonV.num 2)]
      (some "drag")).2.1 (JsonV.num 1) (JsonV.num 2) rfl rfl rfl rfl

/-- `join_url` on a string base whose stripped form is non-empty never
raises: it returns the joined URL. -/
theorem join_urlS_ok (base : String) (paths : List String)
    (h : pyStrip base.data ≠ []) :
    join_urlS base paths = .ok ⟨join_url_core (pyStrip base.data) paths⟩ := by
  simp only [join_urlS, join_url, pyStrOf]
  rw [if_neg h]

/-- Claim C4: GEMINI_NATIVE endpoint resolution (models URL and
completion URL) fails with the v1beta/openai configuration error
exactly when the base's path contains the consecutive whole segments
`v1beta` then `openai`; on every (non-empty, bracket-free) base
without that pair both resolutions succeed with a URL. -/
theorem claim4_native_gate (root model : String)
    (_hb : bracketFree root) (hne : pyStrip root.data ≠ []) :
    (build_gemini_native_models_url root
        = .error .v1betaOpenaiConflict ↔ has_v1beta_openai root = true)
    ∧ (build_gemini_native_generate_content_url root model
        = .error .v1betaOpenaiConflict ↔ has_v1beta_openai root = true)
    ∧ (has_v1beta_openai root = false →
        (∃ u, build_gemini_native_models_url root = .ok u)
        ∧ (∃ u, build_gemini_native_generate_content_url root model = .ok u)) := by
  have hmok : has_v1beta_openai root = false →
      ∃ u, build_gemini_native_models_url root = Except.ok u := by
    intro hov
    unfold build_gemini_native_models_url
    rw [if_neg (by simp [hov])]
    by_cases hv : has_v1beta root = true
    · rw [if_pos hv, join_urlS_ok root _ hne]
      exact ⟨_, rfl⟩
    · rw [if_neg hv, join_urlS_ok root _ hne]
      exact ⟨_, rfl⟩
  have hgok : has_v1beta_openai root = false →
      ∃ u, build_gemini_native_generate_content_url root model = Except.ok u := by
    intro hov
    unfold build_gemini_native_generate_content_url
    rw [if_neg (by simp [hov])]
    by_cases hv : has_v1beta root = true
    · rw [if_pos hv, join_urlS_ok root _ hne]
      exact ⟨_, rfl⟩
    · rw [if_neg hv, join_urlS_ok root _ hne]
      exact ⟨_, rfl⟩
  refine ⟨⟨?_, ?_⟩, ⟨?_, ?_⟩, fun hov => ⟨hmok hov, hgok hov⟩⟩
  · intro h
    by_contra hov
    obtain ⟨u, hu⟩ := hmok (by simpa using hov)
    rw [hu] at h
    exact Except.noConfusion h
  · intro hov
    unfold build_gemini_native_models_url
    rw [if_pos hov]
  · intro h
    by_contra hov
    obtain ⟨u, hu⟩ := hgok (by simpa using hov)
    rw [hu] at h
    exact Except.noConfusion h
  · intro hov
    unfold build_gemini_native_generate_content_url
    rw [if_pos hov]

/-- Witness for claim C4: a base already carrying `/v1beta/openai` is
rejected, and a plain proxy base resolves to a URL. -/
theorem claim4_native_gate_witness :
    build_gemini_native_models_url "http://h/v1beta/openai"
        = .error .v1betaOpenaiConflict
    ∧ (∃ u, build_gemini_native_generate_content_url "http://h/pre" "gemini-pro"
        = .ok u) := by
  constructor
  · exact (claim4_native_gate "http://h/v1beta/openai" "gemini-pro"
      (by constructor <;> decide) (by decide)).1.mpr (by rfl)
  · exact ((claim4_native_gate "http://h/pre" "gemini-pro"
      (by constructor <;> decide) (by decide)).2.2 (by rfl)).2

/-! ## Re-splitting a rebuilt URL

`join_url` re-assembles the URL with `urlunsplit`; relating the result
to the base's parts requires splitting that rebuilt string again. -/
theorem takeWhile_all_append (p : Char → Bool) (xs ys : List Char)
    (h : ∀ x ∈ xs, p x = true) :
    (xs ++ ys).takeWhile p = xs ++ ys.takeWhile p := by
  induction xs with
  | nil => simp
  | cons a l ih =>
    rw [List.cons_append, List.takeWhile_cons, if_pos (h a (by simp)),
      ih (fun x hx => h x (by simp [hx])), List.cons_append]

theorem dropWhile_all_append (p : Char → Bool) (xs ys : List Char)
    (h : ∀ x ∈ xs, p x = true) :
    (xs ++ ys).dropWhile p = ys.dropWhile p := by
  induction xs with
  | nil => simp
  | cons a l ih =>
    rw [List.cons_append, List.dropWhile_cons, if_pos (h a (by simp))]
    exact ih (fun x hx => h x (by simp [hx]))

theorem takeWhile_stop (p : Char → Bool) (xs ys : List Char) (y : Char)
    (h : ∀ x ∈ xs, p x = true) (hy : p y = false) :
    (xs ++ y :: ys).takeWhile p = xs := by
  rw [takeWhile_all_append p xs _ h, List.takeWhile_cons, if_neg (by simp [hy]),
    List.append_nil]

theorem dropWhile_stop (p : Char → Bool) (xs ys : List Char) (y : Char)
    (h : ∀ x ∈ xs, p x = true) (hy : p y = false) :
    (xs ++ y :: ys).dropWhile p = y :: ys := by
  rw [dropWhile_all_append p xs _ h, List.dropWhile_cons, if_neg (by simp [hy])]

theorem schemeChar_safe (c : Char) (h : schemeChar c = true) :
    c ≠ ':' ∧ unsafeUrlByte c = false := by
  refine ⟨fun he => absurd (he ▸ h) (by decide), ?_⟩
  cases hu : unsafeUrlByte c with
  | false => rfl
  | true =>
    exfalso
    have h3 : (c = '\t' ∨ c = '\r') ∨ c = '\n' := by simpa [unsafeUrlByte] using hu
    rcases h3 with (h1 | h1) | h1 <;> exact absurd (h1 ▸ h) (by decide)

theorem isUpper_iff (c : Char) : c.isUpper = true ↔ 65 ≤ c.toNat ∧ c.toNat ≤ 90 := by
  simp [Char.isUpper]
  exact Iff.rfl

theorem isLower_iff (c : Char) : c.isLower = true ↔ 97 ≤ c.toNat ∧ c.toNat ≤ 122 := by
  simp [Char.isLower]
  exact Iff.rfl

theorem isAlpha_iff (c : Char) : c.isAlpha = true
    ↔ (65 ≤ c.toNat ∧ c.toNat ≤ 90) ∨ (97 ≤ c.toNat ∧ c.toNat ≤ 122) := by
  simp [Char.isAlpha, isUpper_iff, isLower_iff]

theorem asciiLower_toNat_upper (c : Char) (h : 65 ≤ c.toNat ∧ c.toNat ≤ 90) :
    (asciiLower c).toNat = c.toNat + 32 := by
  have h' : 'A' ≤ c ∧ c ≤ 'Z' := h
  rw [asciiLower, if_pos h']
  exact toNat_charOfNat _ (by omega)

theorem asciiLower_eq_self (c : Char) (h : ¬(65 ≤ c.toNat ∧ c.toNat ≤ 90)) :
    asciiLower c = c := by
  have h' : ¬('A' ≤ c ∧ c ≤ 'Z') := h
  rw [asciiLower, if_neg h']

theorem asciiLower_idem (c : Char) : asciiLower (asciiLower c) = asciiLower c := by
  by_cases h : 65 ≤ c.toNat ∧ c.toNat ≤ 90
  · apply asciiLower_eq_self
    rw [asciiLower_toNat_upper c h]
    omega
  · rw [asciiLower_eq_self c h, asciiLower_eq_self c h]

theorem asciiLower_isAlpha (c : Char) (h : c.isAlpha = true) :
    (asciiLower c).isAlpha = true := by
  rw [isAlpha_iff] at h ⊢
  by_cases hu : 65 ≤ c.toNat ∧ c.toNat ≤ 90
  · rw [asciiLower_toNat_upper c hu]
    omega
  · rw [asciiLower_eq_self c hu]
    exact h

theorem asciiLower_schemeChar (c : Char) (h : schemeChar c = true) :
    schemeChar (asciiLower c) = true := by
  simp only [schemeChar, Bool.or_eq_true] at h ⊢
  rcases h with (((ha | hd) | hp) | hm) | hdot
  · exact Or.inl (Or.inl (Or.inl (Or.inl (asciiLower_isAlpha c ha))))
  · have hd' : '0' ≤ c ∧ c ≤ '9' := by simpa using hd
    have hb : 48 ≤ c.toNat ∧ c.toNat ≤ 57 := hd'
    rw [asciiLower_eq_self c (by omega)]
    exact Or.inl (Or.inl (Or.inl (Or.inr hd)))
  · have hp' : c = '+' := by simpa using hp
    rw [hp']
    decide
  · have hm' : c = '-' := by simpa using hm
    rw [hm']
    decide
  · have hd' : c = '.' := by simpa using hdot
    rw [hd']
    decide

theorem takeWhile_all (p : Char → Bool) (xs : List Char)
    (h : ∀ x ∈ xs, p x = true) : xs.takeWhile p = xs := by
  have := takeWhile_all_append p xs [] h
  simpa using this

theorem dropWhile_all (p : Char → Bool) (xs : List Char)
    (h : ∀ x ∈ xs, p x = true) : xs.dropWhile p = [] := by
  have := dropWhile_all_append p xs [] h
  simpa using this

theorem alpha_not_c0 (c : Char) (h : c.isAlpha = true) : c0OrSpace c = false := by
  have hb := (isAlpha_iff c).mp h
  rw [c0OrSpace]
  simp only [decide_eq_false_iff_not]
  omega

theorem sanitizeUrl_eq_self (c : Char) (r : List Char)
    (hc : c0OrSpace c = false)
    (hall : ∀ x ∈ c :: r, unsafeUrlByte x = false) :
    sanitizeUrl (c :: r) = c :: r := by
  rw [sanitizeUrl, List.dropWhile_cons, if_neg (by simp [hc])]
  exact List.filter_eq_self.mpr (fun a ha => by simp [hall a ha])

theorem splitScheme_clean (sch rest : List Char) (c0 : Char) (sr : List Char)
    (hs : sch = c0 :: sr) (halpha : c0.isAlpha = true)
    (hall : ∀ c ∈ sch, schemeChar c = true)
    (hlow : sch.map asciiLower = sch) :
    splitScheme (sch ++ ':' :: rest) = (sch, rest) := by
  have hne : ∀ x ∈ sch, (decide (x ≠ ':') : Bool) = true := fun x hx => by
    simp [(schemeChar_safe x (hall x hx)).1]
  have htw : (sch ++ ':' :: rest).takeWhile (· ≠ ':') = sch :=
    takeWhile_stop _ sch rest ':' hne (by simp)
  have hdw : (sch ++ ':' :: rest).dropWhile (· ≠ ':') = ':' :: rest :=
    dropWhile_stop _ sch rest ':' hne (by simp)
  have hcond : (c0.isAlpha && (c0 :: sr).all schemeChar) = true := by
    rw [halpha, Bool.true_and, List.all_eq_true]
    exact fun x hx => hall x (hs.symm ▸ hx)
  simp only [splitScheme, htw, hdw]
  rw [if_neg (by simp), hs]
  simp only [List.head?_cons]
  rw [if_pos hcond, ← hs, hlow]
  rfl

theorem splitNetloc_clean (nl tail : List Char)
    (hnl : ∀ c ∈ nl, netlocDelim c = false)
    (htail : tail = [] ∨ ∃ t ts, tail = t :: ts ∧ netlocDelim t = true) :
    splitNetloc ('/' :: '/' :: (nl ++ tail)) = (nl, tail) := by
  have hnl' : ∀ x ∈ nl, (!netlocDelim x) = true := fun x hx => by simp [hnl x hx]
  simp only [splitNetloc]
  rw [if_pos (show List.take 2 ('/' :: '/' :: (nl ++ tail)) = ['/', '/'] from rfl)]
  rcases htail with rfl | ⟨t, ts, rfl, ht⟩
  · rw [List.append_nil]
    show (nl.takeWhile _, nl.dropWhile _) = (nl, [])
    rw [takeWhile_all _ nl hnl', dropWhile_all _ nl hnl']
  · show ((nl ++ t :: ts).takeWhile _, (nl ++ t :: ts).dropWhile _) = (nl, t :: ts)
    rw [takeWhile_stop _ nl ts t hnl' (by simp [ht]),
      dropWhile_stop _ nl ts t hnl' (by simp [ht])]

theorem splitFrag_none (u : List Char) (h : '#' ∉ u) : splitFrag u = (u, []) := by
  have hc : u.contains '#' = false :=
    Bool.eq_false_iff.mpr (fun hc => h (List.elem_iff.mp hc))
  rw [splitFrag, if_neg (by simpa using h)]

theorem splitFrag_some (a f : List Char) (ha : '#' ∉ a) :
    splitFrag (a ++ '#' :: f) = (a, f) := by
  have hmem : '#' ∈ a ++ '#' :: f := by simp
  have hc : (a ++ '#' :: f).contains '#' = true := List.elem_iff.mpr hmem
  have hne : ∀ x ∈ a, (decide (x ≠ '#') : Bool) = true := fun x hx => by
    simp
    exact fun he => ha (he ▸ hx)
  rw [splitFrag, if_pos hc, takeWhile_stop _ a f '#' hne (by simp),
    dropWhile_stop _ a f '#' hne (by simp)]
  rfl

theorem splitQuery_none (u : List Char) (h : '?' ∉ u) : splitQuery u = (u, []) := by
  have hc : u.contains '?' = false :=
    Bool.eq_false_iff.mpr (fun hc => h (List.elem_iff.mp hc))
  rw [splitQuery, if_neg (by simpa using h)]

theorem splitQuery_some (a q : List Char) (ha : '?' ∉ a) :
    splitQuery (a ++ '?' :: q) = (a, q) := by
  have hmem : '?' ∈ a ++ '?' :: q := by simp
  have hc : (a ++ '?' :: q).contains '?' = true := List.elem_iff.mpr hmem
  have hne : ∀ x ∈ a, (decide (x ≠ '?') : Bool) = true := fun x hx => by
    simp
    exact fun he => ha (he ▸ hx)
  rw [splitQuery, if_pos hc, takeWhile_stop _ a q '?' hne (by simp),
    dropWhile_stop _ a q '?' hne (by simp)]
  rfl

/-- Normal form of `urlunsplit` on absolute parts whose path is empty
or slash-led. -/
theorem urlunsplit_eq (P : UrlParts) (hnl : P.netloc ≠ [])
    (hpath : P.path = [] ∨ P.path.take 1 = ['/']) (hsch : P.scheme ≠ []) :
    urlunsplitS P = P.scheme ++ ':' :: '/' :: '/' ::
      (P.netloc ++ (P.path
        ++ ((if P.query = [] then [] else '?' :: P.query)
          ++ (if P.fragment = [] then [] else '#' :: P.fragment)))) := by
  have hfix : ¬(P.path ≠ [] ∧ P.path.take 1 ≠ ['/']) := by
    rcases hpath with h | h
    · exact fun hc => hc.1 h
    · exact fun hc => hc.2 h
  simp only [urlunsplitS]
  rw [if_pos (Or.inl hnl), if_neg hfix, if_pos hsch]
  by_cases hq : P.query = [] <;> by_cases hf : P.fragment = [] <;>
    simp [hq, hf, List.append_assoc]

/-- On clean absolute parts, `urlsplit` is a left inverse of
`urlunsplit`. -/
theorem urlsplitCore_urlunsplit (P : UrlParts) (h : cleanAbs P) :
    urlsplitCore (urlunsplitS P) = P := by
  obtain ⟨sch, nl, pth, qy, fr⟩ := P
  obtain ⟨⟨c0, sr, hs, halpha⟩, hschC, hlow, hnl, hnlc, hpathSlash, hpathc, hqc, hfc⟩ := h
  dsimp only at hs hschC hlow hnl hnlc hpathSlash hpathc hqc hfc
  have hschne : sch ≠ [] := by rw [hs]; exact List.cons_ne_nil _ _
  rw [urlunsplit_eq ⟨sch, nl, pth, qy, fr⟩ hnl hpathSlash hschne]
  have hqt : ∀ c ∈ (if qy = [] then ([] : List Char) else '?' :: qy),
      c ≠ '#' ∧ unsafeUrlByte c = false := by
    intro c hc
    by_cases hq : qy = []
    · rw [if_pos hq] at hc
      exact absurd hc (List.not_mem_nil c)
    · rw [if_neg hq] at hc
      rcases List.mem_cons.mp hc with rfl | hc2
      · exact ⟨by decide, by decide⟩
      · exact hqc c hc2
  have hft : ∀ c ∈ (if fr = [] then ([] : List Char) else '#' :: fr),
      unsafeUrlByte c = false := by
    intro c hc
    by_cases hf : fr = []
    · rw [if_pos hf] at hc
      exact absurd hc (List.not_mem_nil c)
    · rw [if_neg hf] at hc
      rcases List.mem_cons.mp hc with rfl | hc2
      · decide
      · exact hfc c hc2
  have hsafe : ∀ x ∈ sch ++ ':' :: '/' :: '/' ::
      (nl ++ (pth ++ ((if qy = [] then [] else '?' :: qy)
        ++ (if fr = [] then [] else '#' :: fr)))),
      unsafeUrlByte x = false := by
    intro x hx
    rcases List.mem_append.mp hx with hx1 | hx2
    · exact (schemeChar_safe x (hschC x hx1)).2
    · rcases List.mem_cons.mp hx2 with rfl | hx3
      · decide
      · rcases List.mem_cons.mp hx3 with rfl | hx4
        · decide
        · rcases List.mem_cons.mp hx4 with rfl | hx5
          · decide
          · rcases List.mem_append.mp hx5 with hx6 | hx7
            · exact (hnlc x hx6).2
            · rcases List.mem_append.mp hx7 with hx8 | hx9
              · exact (hpathc x hx8).2.2
              · rcases List.mem_append.mp hx9 with hx10 | hx11
                · exact (hqt x hx10).2
                · exact hft x hx11
  have hsan : sanitizeUrl (sch ++ ':' :: '/' :: '/' ::
      (nl ++ (pth ++ ((if qy = [] then [] else '?' :: qy)
        ++ (if fr = [] then [] else '#' :: fr))))) = sch ++ ':' :: '/' :: '/' ::
      (nl ++ (pth ++ ((if qy = [] then [] else '?' :: qy)
        ++ (if fr = [] then [] else '#' :: fr)))) := by
    rw [hs, List.cons_append]
    exact sanitizeUrl_eq_self c0 _ (alpha_not_c0 c0 halpha)
      (by rw [← List.cons_append, ← hs]; exact hsafe)
  have hscheme := splitScheme_clean sch ('/' :: '/' ::
      (nl ++ (pth ++ ((if qy = [] then [] else '?' :: qy)
        ++ (if fr = [] then [] else '#' :: fr))))) c0 sr hs halpha hschC hlow
  have htail : (pth ++ ((if qy = [] then [] else '?' :: qy)
        ++ (if fr = [] then [] else '#' :: fr))) = []
      ∨ ∃ t ts, (pth ++ ((if qy = [] then [] else '?' :: qy)
        ++ (if fr = [] then [] else '#' :: fr))) = t :: ts ∧ netlocDelim t = true := by
    rcases hpathSlash with hp | hp
    · rw [hp, List.nil_append]
      by_cases hq : qy = []
      · rw [if_pos hq, List.nil_append]
        by_cases hf : fr = []
        · rw [if_pos hf]
          exact Or.inl rfl
        · rw [if_neg hf]
          exact Or.inr ⟨'#', fr, rfl, by decide⟩
      · rw [if_neg hq, List.cons_append]
        exact Or.inr ⟨'?', _, rfl, by decide⟩
    · rcases pth with _ | ⟨p0, prest⟩
      · exact absurd hp (by decide)
      · have hp0 : p0 = '/' := by simpa using hp
        exact Or.inr ⟨p0, _, List.cons_append p0 prest _, by rw [hp0]; decide⟩
  have hnetloc := splitNetloc_clean nl _ (fun c hc => (hnlc c hc).1) htail
  have hfrag : splitFrag (pth ++ ((if qy = [] then [] else '?' :: qy)
        ++ (if fr = [] then [] else '#' :: fr)))
      = (pth ++ (if qy = [] then [] else '?' :: qy), fr) := by
    by_cases hf : fr = []
    · rw [if_pos hf, List.append_nil, hf]
      apply splitFrag_none
      intro hmem
      rcases List.mem_append.mp hmem with hm1 | hm2
      · exact (hpathc '#' hm1).1 rfl
      · exact (hqt '#' hm2).1 rfl
    · rw [if_neg hf, ← List.append_assoc]
      apply splitFrag_some
      intro hmem
      rcases List.mem_append.mp hmem with hm1 | hm2
      · exact (hpathc '#' hm1).1 rfl
      · exact (hqt '#' hm2).1 rfl
  have hquery : splitQuery (pth ++ (if qy = [] then [] else '?' :: qy))
      = (pth, qy) := by
    by_cases hq : qy = []
    · rw [if_pos hq, List.append_nil, hq]
      apply splitQuery_none
      intro hmem
      exact (hpathc '?' hmem).2.1 rfl
    · rw [if_neg hq]
      apply splitQuery_some
      intro hmem
      exact (hpathc '?' hmem).2.1 rfl
  show urlsplitCore _ = _
  simp only [urlsplitCore, hsan, hscheme, hnetloc, hfrag, hquery]

theorem dropWhile_head (p : Char → Bool) (l : List Char) :
    l.dropWhile p = [] ∨ ∃ t ts, l.dropWhile p = t :: ts ∧ p t = false := by
  induction l with
  | nil => exact Or.inl rfl
  | cons a l ih =>
    rw [List.dropWhile_cons]
    by_cases ha : p a = true
    · rw [if_pos ha]
      exact ih
    · rw [if_neg ha]
      exact Or.inr ⟨a, l, rfl, by simpa using ha⟩

theorem splitScheme_spec (url : List Char) :
    ((splitScheme url).1 = [] ∧ (splitScheme url).2 = url)
    ∨ ((∃ c r, (splitScheme url).1 = c :: r ∧ c.isAlpha = true)
      ∧ (∀ c ∈ (splitScheme url).1, schemeChar c = true)
      ∧ (splitScheme url).1.map asciiLower = (splitScheme url).1
      ∧ (∀ c ∈ (splitScheme url).2, c ∈ url)) := by
  by_cases hpost : url.dropWhile (· ≠ ':') = []
  · have hspl : splitScheme url = ([], url) := by
      simp only [splitScheme]
      rw [if_pos hpost]
    rw [hspl]
    exact Or.inl ⟨rfl, rfl⟩
  · cases hh : (url.takeWhile (· ≠ ':')).head? with
    | none =>
      have hspl : splitScheme url = ([], url) := by
        simp only [splitScheme, hh]
        rw [if_neg hpost]
      rw [hspl]
      exact Or.inl ⟨rfl, rfl⟩
    | some c =>
      have hpre : ∃ pr, url.takeWhile (· ≠ ':') = c :: pr := by
        cases hp : url.takeWhile (· ≠ ':') with
        | nil => rw [hp] at hh; exact absurd hh (by simp)
        | cons a l =>
          rw [hp] at hh
          simp only [List.head?_cons, Option.some.injEq] at hh
          exact ⟨l, by rw [hh]⟩
      obtain ⟨pr, hp⟩ := hpre
      by_cases hc : (c.isAlpha && (url.takeWhile (· ≠ ':')).all schemeChar) = true
      · have hspl : splitScheme url
            = ((url.takeWhile (· ≠ ':')).map asciiLower,
              (url.dropWhile (· ≠ ':')).drop 1) := by
          simp only [splitScheme, hh]
          rw [if_neg hpost, if_pos hc]
        rw [hspl]
        right
        have hc2 : c.isAlpha = true ∧ (url.takeWhile (· ≠ ':')).all schemeChar = true := by
          simpa using hc
        have hall : ∀ x ∈ url.takeWhile (· ≠ ':'), schemeChar x = true := by
          have h2 := hc2.2
          rw [List.all_eq_true] at h2
          exact h2
        refine ⟨⟨asciiLower c, pr.map asciiLower, by rw [hp]; rfl,
          asciiLower_isAlpha c hc2.1⟩, ?_, ?_, ?_⟩
        · intro x hx
          rw [List.mem_map] at hx
          obtain ⟨y, hy, rfl⟩ := hx
          exact asciiLower_schemeChar y (hall y hy)
        · rw [List.map_map]
          exact List.map_congr_left (fun x _ => asciiLower_idem x)
        · intro x hx
          exact (List.dropWhile_sublist _).subset (List.drop_subset _ _ hx)
      · have hspl : splitScheme url = ([], url) := by
          simp only [splitScheme, hh]
          rw [if_neg hpost, if_neg hc]
        rw [hspl]
        exact Or.inl ⟨rfl, rfl⟩

theorem splitNetloc_spec (url1 : List Char) :
    (∀ c ∈ (splitNetloc url1).1, netlocDelim c = false ∧ c ∈ url1)
    ∧ (∀ c ∈ (splitNetloc url1).2, c ∈ url1)
    ∧ ((splitNetloc url1).1 ≠ [] →
        (splitNetloc url1).2 = []
        ∨ ∃ t ts, (splitNetloc url1).2 = t :: ts ∧ netlocDelim t = true) := by
  by_cases h2 : url1.take 2 = ['/', '/']
  · have hspl : splitNetloc url1
        = ((url1.drop 2).takeWhile (fun c => !netlocDelim c),
          (url1.drop 2).dropWhile (fun c => !netlocDelim c)) := by
      rw [splitNetloc, if_pos h2]
    rw [hspl]
    refine ⟨?_, ?_, ?_⟩
    · intro c hc
      have hd := List.mem_takeWhile_imp hc
      refine ⟨by simpa using hd, ?_⟩
      exact List.drop_subset _ _ ((List.takeWhile_sublist _).subset hc)
    · intro c hc
      exact List.drop_subset _ _ ((List.dropWhile_sublist _).subset hc)
    · intro _
      rcases dropWhile_head (fun c => !netlocDelim c) (url1.drop 2) with h | ⟨t, ts, ht, htf⟩
      · exact Or.inl h
      · exact Or.inr ⟨t, ts, ht, by simpa using htf⟩
  · have hspl : splitNetloc url1 = ([], url1) := by
      rw [splitNetloc, if_neg h2]
    rw [hspl]
    exact ⟨fun c hc => absurd hc (List.not_mem_nil c), fun c hc => hc,
      fun hne => absurd rfl hne⟩

theorem splitFrag_spec (u : List Char) :
    ('#' ∉ (splitFrag u).1)
    ∧ (∃ r, u = (splitFrag u).1 ++ r)
    ∧ (∀ c ∈ (splitFrag u).2, c ∈ u) := by
  by_cases hc : u.contains '#' = true
  · have hspl : splitFrag u
        = (u.takeWhile (· ≠ '#'), (u.dropWhile (· ≠ '#')).drop 1) := by
      rw [splitFrag, if_pos hc]
    rw [hspl]
    refine ⟨?_, ⟨u.dropWhile (· ≠ '#'), (List.takeWhile_append_dropWhile _ _).symm⟩, ?_⟩
    · intro hmem
      have hd := List.mem_takeWhile_imp hmem
      simp at hd
    · intro c hcm
      exact (List.dropWhile_sublist _).subset (List.drop_subset _ _ hcm)
  · have hspl : splitFrag u = (u, []) := by
      rw [splitFrag, if_neg hc]
    rw [hspl]
    refine ⟨?_, ⟨[], (List.append_nil u).symm⟩, fun c hcm => absurd hcm (List.not_mem_nil c)⟩
    intro hmem
    exact hc (List.elem_iff.mpr hmem)

theorem splitQuery_spec (u : List Char) :
    ('?' ∉ (splitQuery u).1)
    ∧ (∃ r, u = (splitQuery u).1 ++ r)
    ∧ (∀ c ∈ (splitQuery u).2, c ∈ u) := by
  by_cases hc : u.contains '?' = true
  · have hspl : splitQuery u
        = (u.takeWhile (· ≠ '?'), (u.dropWhile (· ≠ '?')).drop 1) := by
      rw [splitQuery, if_pos hc]
    rw [hspl]
    refine ⟨?_, ⟨u.dropWhile (· ≠ '?'), (List.takeWhile_append_dropWhile _ _).symm⟩, ?_⟩
    · intro hmem
      have hd := List.mem_takeWhile_imp hmem
      simp at hd
    · intro c hcm
      exact (List.dropWhile_sublist _).subset (List.drop_subset _ _ hcm)
  · have hspl : splitQuery u = (u, []) := by
      rw [splitQuery, if_neg hc]
    rw [hspl]
    refine ⟨?_, ⟨[], (List.append_nil u).symm⟩, fun c hcm => absurd hcm (List.not_mem_nil c)⟩
    intro hmem
    exact hc (List.elem_iff.mpr hmem)

/-- `urlsplit` produces clean absolute parts whenever it finds a
scheme and a netloc. -/
theorem urlsplitCore_clean (s : List Char)
    (hsch : (urlsplitCore s).scheme ≠ []) (hnl : (urlsplitCore s).netloc ≠ []) :
    cleanAbs (urlsplitCore s) := by
  have husafe : ∀ c ∈ sanitizeUrl s, unsafeUrlByte c = false := by
    intro c hc
    have h2 := List.of_mem_filter hc
    simpa using h2
  have hSch : (urlsplitCore s).scheme = (splitScheme (sanitizeUrl s)).1 := rfl
  have hNl : (urlsplitCore s).netloc
      = (splitNetloc (splitScheme (sanitizeUrl s)).2).1 := rfl
  have hPath : (urlsplitCore s).path
      = (splitQuery (splitFrag (splitNetloc (splitScheme (sanitizeUrl s)).2).2).1).1 := rfl
  have hQy : (urlsplitCore s).query
      = (splitQuery (splitFrag (splitNetloc (splitScheme (sanitizeUrl s)).2).2).1).2 := rfl
  have hFr : (urlsplitCore s).fragment
      = (splitFrag (splitNetloc (splitScheme (sanitizeUrl s)).2).2).2 := rfl
  rcases splitScheme_spec (sanitizeUrl s) with ⟨hs1, _⟩ | ⟨hex, hallS, hlowS, hmemS⟩
  · exact absurd (hSch.trans hs1) hsch
  · obtain ⟨hnlP, hnlMem, hnlTail⟩ := splitNetloc_spec (splitScheme (sanitizeUrl s)).2
    obtain ⟨hfH, ⟨rf, hfPre⟩, hfMem⟩ :=
      splitFrag_spec (splitNetloc (splitScheme (sanitizeUrl s)).2).2
    obtain ⟨hqH, ⟨rq, hqPre⟩, hqMem⟩ :=
      splitQuery_spec (splitFrag (splitNetloc (splitScheme (sanitizeUrl s)).2).2).1
    have memN : ∀ c ∈ (splitNetloc (splitScheme (sanitizeUrl s)).2).2,
        c ∈ sanitizeUrl s := fun c hc => hmemS c (hnlMem c hc)
    have memF1 : ∀ c ∈ (splitFrag (splitNetloc (splitScheme (sanitizeUrl s)).2).2).1,
        c ∈ sanitizeUrl s := by
      intro c hc
      apply memN
      rw [hfPre]
      exact List.mem_append.mpr (Or.inl hc)
    have memPath : ∀ c ∈ (urlsplitCore s).path, c ∈ sanitizeUrl s := by
      intro c hc
      rw [hPath] at hc
      apply memF1
      rw [hqPre]
      exact List.mem_append.mpr (Or.inl hc)
    have pathInF1 : ∀ c ∈ (urlsplitCore s).path,
        c ∈ (splitFrag (splitNetloc (splitScheme (sanitizeUrl s)).2).2).1 := by
      intro c hc
      rw [hPath] at hc
      rw [hqPre]
      exact List.mem_append.mpr (Or.inl hc)
    refine ⟨?_, ?_, ?_, hnl, ?_, ?_, ?_, ?_, ?_⟩
    · rw [hSch]
      exact hex
    · rw [hSch]
      exact hallS
    · rw [hSch]
      exact hlowS
    · intro c hc
      rw [hNl] at hc
      exact ⟨(hnlP c hc).1, husafe c (hmemS c (hnlP c hc).2)⟩
    · have hb2 := hnlTail (by rw [← hNl]; exact hnl)
      rcases hb2 with hb0 | ⟨t, ts, hbt, htd⟩
      · left
        rw [hPath]
        generalize hg1 : (splitQuery (splitFrag (splitNetloc
            (splitScheme (sanitizeUrl s)).2).2).1).1 = P0 at hqPre ⊢
        generalize hg2 : (splitFrag (splitNetloc
            (splitScheme (sanitizeUrl s)).2).2).1 = F1 at hfPre hqPre
        generalize hg3 : (splitNetloc
            (splitScheme (sanitizeUrl s)).2).2 = N2 at hfPre hb0
        rw [hb0] at hfPre
        have hF1 : F1 = [] := (List.append_eq_nil.mp hfPre.symm).1
        rw [hF1] at hqPre
        exact (List.append_eq_nil.mp hqPre.symm).1
      · rcases hcase : (urlsplitCore s).path with _ | ⟨p0, prest⟩
        · exact Or.inl rfl
        · right
          have hchain : (splitNetloc (splitScheme (sanitizeUrl s)).2).2
              = (urlsplitCore s).path ++ (rq ++ rf) := by
            rw [hPath, ← List.append_assoc, ← hqPre, ← hfPre]
          rw [hbt, hcase, List.cons_append] at hchain
          have hp0 : t = p0 := by
            injection hchain with h5 _
          have htd2 : (t = '/' ∨ t = '?') ∨ t = '#' := by
            simpa [netlocDelim] using htd
          have hp0path : p0 ∈ (urlsplitCore s).path := by
            rw [hcase]
            exact List.mem_cons_self p0 prest
          rcases htd2 with (h6 | h6) | h6
          · have hp0' : p0 = '/' := hp0 ▸ h6
            rw [hp0']
            rfl
          · have hp0' : p0 = '?' := hp0 ▸ h6
            exact absurd (hPath ▸ (hp0' ▸ hp0path)) hqH
          · have hp0' : p0 = '#' := hp0 ▸ h6
            exact absurd (hp0' ▸ pathInF1 p0 hp0path) hfH
    · intro c hc
      refine ⟨?_, ?_, husafe c (memPath c hc)⟩
      · intro he
        exact hfH (he ▸ pathInF1 c hc)
      · intro he
        exact hqH (he ▸ (hPath ▸ hc))
    · intro c hc
      rw [hQy] at hc
      have hcf1 := hqMem c hc
      refine ⟨fun he => hfH (he ▸ hcf1), husafe c (memF1 c hcf1)⟩
    · intro c hc
      rw [hFr] at hc
      exact husafe c (memN c (hfMem c hc))

theorem rstrip_decomp (p : List Char) :
    ∃ suf, p = rstripSlash p ++ suf ∧ ∀ c ∈ suf, c = '/' := by
  refine ⟨(p.reverse.takeWhile (· = '/')).reverse, ?_, ?_⟩
  · rw [rstripSlash, ← List.reverse_append, List.takeWhile_append_dropWhile,
      List.reverse_reverse]
  · intro c hc
    rw [List.mem_reverse] at hc
    have := List.mem_takeWhile_imp hc
    simpa using this

theorem dropWhile_slash_head (s : List Char) :
    (s.dropWhile (· = '/')).head? ≠ some '/' := by
  rcases dropWhile_head (fun c => decide (c = '/')) s with h | ⟨t, ts, ht, htf⟩
  · rw [h]
    exact fun he => Option.noConfusion he
  · rw [ht]
    intro he
    simp only [List.head?_cons, Option.some.injEq] at he
    rw [he] at htf
    exact absurd htf (by decide)

theorem rstripSlash_getLast (s : List Char) :
    (rstripSlash s).getLast? ≠ some '/' := by
  rw [rstripSlash, List.getLast?_reverse]
  exact dropWhile_slash_head s.reverse

theorem stripSlash_getLast (s : List Char) :
    (stripSlash s).getLast? ≠ some '/' := by
  rw [stripSlash, List.getLast?_reverse]
  exact dropWhile_slash_head (s.dropWhile (· = '/')).reverse

theorem stripSlash_take1 (s : List Char) : (stripSlash s).take 1 ≠ ['/'] := by
  have hdec := rstrip_decomp (s.dropWhile (· = '/'))
  obtain ⟨suf, hdec, -⟩ := hdec
  have hstrip : stripSlash s = rstripSlash (s.dropWhile (· = '/')) := rfl
  rw [hstrip]
  cases hr : rstripSlash (s.dropWhile (· = '/')) with
  | nil => exact fun he => List.noConfusion he
  | cons h0 t =>
    intro he
    have hh0 : h0 = '/' := by
      have := he
      simpa using this
    have hhead : (s.dropWhile (· = '/')).head? = some h0 := by
      rw [hdec, hr, List.cons_append]
      rfl
    exact dropWhile_slash_head s (hh0 ▸ hhead)

theorem posixJoin_clean (segs : List (List Char)) :
    ∀ a, a ≠ [] → a.getLast? ≠ some '/' →
    (∀ b ∈ segs, b ≠ [] ∧ b.take 1 ≠ ['/'] ∧ b.getLast? ≠ some '/') →
    posixJoin a segs = a ++ slashCat segs := by
  induction segs with
  | nil =>
    intro a _ _ _
    simp [posixJoin, slashCat]
  | cons b rest ih =>
    intro a ha hlast hsegs
    obtain ⟨hb, hbh, hbl⟩ := hsegs b (List.mem_cons_self b rest)
    have hstep : posixJoin a (b :: rest) = posixJoin (a ++ '/' :: b) rest := by
      rw [posixJoin, List.foldl_cons, if_neg hbh, if_neg (by
        rintro (h | h)
        · exact ha h
        · exact hlast h)]
      rfl
    rw [hstep, ih (a ++ '/' :: b) (by simp) (by
        rw [List.getLast?_append_of_ne_nil a (List.cons_ne_nil '/' b)]
        have h7 : ('/' :: b : List Char) = ['/'] ++ b := rfl
        rw [h7, List.getLast?_append_of_ne_nil ['/'] hb]
        exact hbl)
      (fun c hc => hsegs c (List.mem_cons_of_mem b hc))]
    simp only [slashCat, List.foldr_cons]
    simp [List.append_assoc]

theorem posixJoin_clean_nil (b : List Char) (rest : List (List Char))
    (hb : b ≠ []) (hbh : b.take 1 ≠ ['/']) (hbl : b.getLast? ≠ some '/')
    (hrest : ∀ x ∈ rest, x ≠ [] ∧ x.take 1 ≠ ['/'] ∧ x.getLast? ≠ some '/') :
    posixJoin [] (b :: rest) = b ++ slashCat rest := by
  have hstep : posixJoin [] (b :: rest) = posixJoin b rest := by
    rw [posixJoin, List.foldl_cons, if_neg hbh, if_pos (Or.inl rfl)]
    rfl
  rw [hstep, posixJoin_clean rest b hb hbl hrest]

theorem cleanParts_facts (paths : List String) :
    ∀ b ∈ cleanParts paths, b ≠ [] ∧ b.take 1 ≠ ['/'] ∧ b.getLast? ≠ some '/' := by
  intro b hb
  have hbne : b ≠ [] := by
    have h2 := List.of_mem_filter hb
    simpa using h2
  have hbmem := List.mem_of_mem_filter hb
  rw [List.mem_map] at hbmem
  obtain ⟨q, _, rfl⟩ := hbmem
  exact ⟨hbne, stripSlash_take1 q.data, stripSlash_getLast q.data⟩

theorem joinedPath_eq (p : List Char) (paths : List String)
    (hp : p = [] ∨ p.take 1 = ['/'])
    (hcp : cleanParts paths ≠ []) :
    joinedPath p paths = rstripSlash p ++ slashCat (cleanParts paths) := by
  obtain ⟨b, rest, hbr⟩ : ∃ b rest, cleanParts paths = b :: rest := by
    cases h : cleanParts paths with
    | nil => exact absurd h hcp
    | cons b r => exact ⟨b, r, rfl⟩
  have hfacts := cleanParts_facts paths
  obtain ⟨hbne, hbh, hbl⟩ := hfacts b (by rw [hbr]; exact List.mem_cons_self b rest)
  obtain ⟨b0, bt, rfl⟩ : ∃ b0 bt, b = b0 :: bt := by
    cases b with
    | nil => exact absurd rfl hbne
    | cons b0 bt => exact ⟨b0, bt, rfl⟩
  have hb0 : b0 ≠ '/' := by
    intro he
    exact hbh (by rw [he]; rfl)
  simp only [joinedPath]
  rw [if_neg hcp]
  by_cases hbase : rstripSlash p = []
  · have hjoin : posixJoin (rstripSlash p) (cleanParts paths)
        = (b0 :: bt) ++ slashCat rest := by
      rw [hbase, hbr]
      exact posixJoin_clean_nil (b0 :: bt) rest hbne hbh hbl
        (fun x hx => hfacts x (by rw [hbr]; exact List.mem_cons_of_mem _ hx))
    rw [hjoin]
    rw [if_pos (by
      rw [List.cons_append]
      intro he
      exact hb0 (by simpa using he))]
    rw [if_pos (by simp)]
    rw [hbase, hbr, List.nil_append]
    rfl
  · obtain ⟨h0, t0, hr0⟩ : ∃ h0 t0, rstripSlash p = h0 :: t0 := by
      cases hx : rstripSlash p with
      | nil => exact absurd hx hbase
      | cons h0 t0 => exact ⟨h0, t0, rfl⟩
    have hpne : p.take 1 = ['/'] := by
      rcases hp with h | h
      · rw [h] at hr0
        exact absurd hr0 (by rw [rstripSlash]; simp)
      · exact h
    have hh0 : h0 = '/' := by
      obtain ⟨suf, hdec, -⟩ := rstrip_decomp p
      rw [hr0, List.cons_append] at hdec
      rw [hdec] at hpne
      simpa using hpne
    have hjoin : posixJoin (rstripSlash p) (cleanParts paths)
        = rstripSlash p ++ slashCat (cleanParts paths) :=
      posixJoin_clean (cleanParts paths) (rstripSlash p) hbase
        (rstripSlash_getLast p) hfacts
    rw [hjoin]
    rw [if_neg (by
      rw [hr0, List.cons_append, hh0]
      intro he
      exact he rfl)]

theorem path_segments_eq_segsOf (url : String) :
    path_segments url = segsOf (urlsplitS url).path := rfl

theorem splitOnP_append_cons (p : Char → Bool) (xs ys : List Char) (y : Char)
    (hy : p y = true) :
    (xs ++ y :: ys).splitOnP p = xs.splitOnP p ++ ys.splitOnP p := by
  induction xs with
  | nil => simp [List.splitOnP_cons, hy, List.splitOnP_nil]
  | cons a l ih =>
    rw [List.cons_append, List.splitOnP_cons, List.splitOnP_cons]
    by_cases ha : p a = true
    · rw [if_pos ha, if_pos ha, ih, List.cons_append]
    · rw [if_neg ha, if_neg ha, ih]
      obtain ⟨s, ss, hss⟩ : ∃ s ss, l.splitOnP p = s :: ss := by
        cases h : l.splitOnP p with
        | nil => exact absurd h (List.splitOnP_ne_nil p l)
        | cons s ss => exact ⟨s, ss, rfl⟩
      rw [hss]
      simp

theorem segsOf_append (xs ys : List Char) :
    segsOf (xs ++ '/' :: ys) = segsOf xs ++ segsOf ys := by
  have hconv : ∀ l : List Char, l.splitOn '/' = l.splitOnP (· == '/') := fun _ => rfl
  rw [segsOf, segsOf, segsOf, hconv, hconv, hconv,
    splitOnP_append_cons _ xs ys '/' (by simp), List.filter_append]

theorem segsOf_append_slashes (suf : List Char) (h : ∀ c ∈ suf, c = '/') :
    ∀ xs, segsOf (xs ++ suf) = segsOf xs := by
  induction suf with
  | nil =>
    intro xs
    rw [List.append_nil]
  | cons c rest ih =>
    intro xs
    have hc : c = '/' := h c (List.mem_cons_self c rest)
    subst hc
    rw [segsOf_append xs rest]
    have h2 : segsOf rest = [] := by
      have h3 := ih (fun c hc => h c (List.mem_cons_of_mem _ hc)) []
      simpa using h3
    rw [h2, List.append_nil]

theorem segsOf_rstripSlash (p : List Char) :
    segsOf (rstripSlash p) = segsOf p := by
  obtain ⟨suf, hdec, hall⟩ := rstrip_decomp p
  conv_rhs => rw [hdec]
  exact (segsOf_append_slashes suf hall (rstripSlash p)).symm

theorem mem_rstripSlash (s : List Char) (c : Char) (h : c ∈ rstripSlash s) :
    c ∈ s := by
  obtain ⟨suf, hdec, -⟩ := rstrip_decomp s
  rw [hdec]
  exact List.mem_append.mpr (Or.inl h)

theorem mem_stripSlash (s : List Char) (c : Char) (h : c ∈ stripSlash s) :
    c ∈ s := by
  have h1 : c ∈ s.dropWhile (· = '/') :=
    mem_rstripSlash (s.dropWhile (· = '/')) c h
  exact (List.dropWhile_sublist _).subset h1

theorem posixJoin_mem (ps : List (List Char)) :
    ∀ a c, c ∈ posixJoin a ps → c ∈ a ∨ c = '/' ∨ ∃ b ∈ ps, c ∈ b := by
  induction ps with
  | nil =>
    intro a c hc
    exact Or.inl hc
  | cons b rest ih =>
    intro a c hc
    have hstep : posixJoin a (b :: rest)
        = posixJoin (if b.take 1 = ['/'] then b
            else if a = [] ∨ a.getLast? = some '/' then a ++ b
            else a ++ '/' :: b) rest := rfl
    rw [hstep] at hc
    rcases ih _ c hc with h1 | h2 | ⟨x, hx, hcx⟩
    · by_cases hb1 : b.take 1 = ['/']
      · rw [if_pos hb1] at h1
        exact Or.inr (Or.inr ⟨b, List.mem_cons_self b rest, h1⟩)
      · rw [if_neg hb1] at h1
        by_cases hb2 : a = [] ∨ a.getLast? = some '/'
        · rw [if_pos hb2] at h1
          rcases List.mem_append.mp h1 with h3 | h3
          · exact Or.inl h3
          · exact Or.inr (Or.inr ⟨b, List.mem_cons_self b rest, h3⟩)
        · rw [if_neg hb2] at h1
          rcases List.mem_append.mp h1 with h3 | h3
          · exact Or.inl h3
          · rcases List.mem_cons.mp h3 with rfl | h4
            · exact Or.inr (Or.inl rfl)
            · exact Or.inr (Or.inr ⟨b, List.mem_cons_self b rest, h4⟩)
    · exact Or.inr (Or.inl h2)
    · exact Or.inr (Or.inr ⟨x, List.mem_cons_of_mem b hx, hcx⟩)

theorem joinedPath_mem (p : List Char) (paths : List String) (c : Char)
    (hc : c ∈ joinedPath p paths) :
    c ∈ p ∨ c = '/' ∨ ∃ q ∈ paths, c ∈ q.data := by
  have hnp : ∀ x ∈ (if cleanParts paths = [] then rstripSlash p
      else posixJoin (rstripSlash p) (cleanParts paths)),
      x ∈ p ∨ x = '/' ∨ ∃ q ∈ paths, x ∈ q.data := by
    intro x hx
    by_cases h0 : cleanParts paths = []
    · rw [if_pos h0] at hx
      exact Or.inl (mem_rstripSlash p x hx)
    · rw [if_neg h0] at hx
      rcases posixJoin_mem (cleanParts paths) (rstripSlash p) x hx with h1 | h1 | ⟨b, hb, hxb⟩
      · exact Or.inl (mem_rstripSlash p x h1)
      · exact Or.inr (Or.inl h1)
      · have hb2 := List.mem_of_mem_filter hb
        rw [List.mem_map] at hb2
        obtain ⟨q, hq, rfl⟩ := hb2
        exact Or.inr (Or.inr ⟨q, hq, mem_stripSlash q.data x hxb⟩)
  simp only [joinedPath] at hc
  by_cases h1 : ((if cleanParts paths = [] then rstripSlash p
      else posixJoin (rstripSlash p) (cleanParts paths)).take 1 ≠ ['/'])
  · rw [if_pos h1] at hc
    by_cases h2 : (if cleanParts paths = [] then rstripSlash p
        else posixJoin (rstripSlash p) (cleanParts paths)) ≠ []
    · rw [if_pos h2] at hc
      rcases List.mem_cons.mp hc with rfl | h3
      · exact Or.inr (Or.inl rfl)
      · exact hnp c h3
    · rw [if_neg h2] at hc
      rcases List.mem_cons.mp hc with rfl | h3
      · exact Or.inr (Or.inl rfl)
      · exact absurd h3 (List.not_mem_nil c)
  · rw [if_neg h1] at hc
    exact hnp c hc

theorem joinedPath_shape (p : List Char) (paths : List String) :
    joinedPath p paths = [] ∨ (joinedPath p paths).take 1 = ['/'] := by
  simp only [joinedPath]
  by_cases h1 : ((if cleanParts paths = [] then rstripSlash p
      else posixJoin (rstripSlash p) (cleanParts paths)).take 1 ≠ ['/'])
  · rw [if_pos h1]
    by_cases h2 : (if cleanParts paths = [] then rstripSlash p
        else posixJoin (rstripSlash p) (cleanParts paths)) ≠ []
    · rw [if_pos h2]
      exact Or.inr rfl
    · rw [if_neg h2]
      exact Or.inr rfl
  · rw [if_neg h1]
    exact Or.inr (not_not.mp h1)

/-- Splitting the URL that `join_url` builds on an absolute base
recovers the base's scheme, netloc, query and fragment unchanged and
the joined path. -/
theorem join_url_core_split (base : List Char) (paths : List String)
    (hsch : (urlsplitCore base).scheme ≠ []) (hnl : (urlsplitCore base).netloc ≠ [])
    (hpaths : ∀ q ∈ paths, ∀ c ∈ q.data, c ≠ '#' ∧ c ≠ '?' ∧ unsafeUrlByte c = false) :
    urlsplitCore (join_url_core base paths)
      = ⟨(urlsplitCore base).scheme, (urlsplitCore base).netloc,
         joinedPath (urlsplitCore base).path paths,
         (urlsplitCore base).query, (urlsplitCore base).fragment⟩ := by
  obtain ⟨hex, hallS, hlowS, hnlne, hnlc, hpathS, hpathc, hqc, hfc⟩ :=
    urlsplitCore_clean base hsch hnl
  have hcore : join_url_core base paths
      = urlunsplitS ⟨(urlsplitCore base).scheme, (urlsplitCore base).netloc,
          joinedPath (urlsplitCore base).path paths,
          (urlsplitCore base).query, (urlsplitCore base).fragment⟩ := by
    simp only [join_url_core, joinedPath, cleanParts]
    rw [if_pos ⟨hsch, hnl⟩]
  rw [hcore]
  apply urlsplitCore_urlunsplit
  refine ⟨hex, hallS, hlowS, hnlne, hnlc, ?_, ?_, hqc, hfc⟩
  · exact joinedPath_shape (urlsplitCore base).path paths
  · intro c hc
    rcases joinedPath_mem (urlsplitCore base).path paths c hc with h | h | ⟨q, hq, hcq⟩
    · exact hpathc c h
    · subst h
      exact ⟨by decide, by decide, by decide⟩
    · exact hpaths q hq c hcq

/-- `join_url` on an absolute, whitespace-free base: the result splits
into the base's parts with the joined path. -/
theorem join_url_split (base : String) (paths : List String)
    (hstrip : pyStrip base.data = base.data)
    (hsch : (urlsplitS base).scheme ≠ []) (hnl : (urlsplitS base).netloc ≠ [])
    (hpaths : ∀ q ∈ paths, ∀ c ∈ q.data, c ≠ '#' ∧ c ≠ '?' ∧ unsafeUrlByte c = false)
    (hcp : cleanParts paths ≠ []) :
    join_urlS base paths = .ok ⟨join_url_core base.data paths⟩
    ∧ urlsplitS ⟨join_url_core base.data paths⟩
        = ⟨(urlsplitS base).scheme, (urlsplitS base).netloc,
           rstripSlash (urlsplitS base).path ++ slashCat (cleanParts paths),
           (urlsplitS base).query, (urlsplitS base).fragment⟩ := by
  have hne : base.data ≠ [] := fun h =>
    hsch (show (urlsplitCore base.data).scheme = [] by rw [h]; rfl)
  have hstrne : pyStrip base.data ≠ [] := by
    rw [hstrip]
    exact hne
  constructor
  · have h1 := join_urlS_ok base paths hstrne
    rw [hstrip] at h1
    exact h1
  · have hsplit := join_url_core_split base.data paths hsch hnl hpaths
    have hshape := (urlsplitCore_clean base.data hsch hnl).2.2.2.2.2.1
    show urlsplitCore (join_url_core base.data paths) = _
    rw [hsplit, joinedPath_eq _ paths hshape hcp]
    rfl

theorem consecPair_append_single (a b m : List Char) (hmb : m ≠ b)
    (l : List (List Char)) :
    consecPair a b (l ++ [m]) = consecPair a b l := by
  induction l with
  | nil => simp [consecPair]
  | cons x rest ih =>
    cases rest with
    | nil =>
      show consecPair a b [x, m] = consecPair a b [x]
      simp [consecPair, hmb]
    | cons y rest2 =>
      show consecPair a b (x :: ((y :: rest2) ++ [m])) = consecPair a b (x :: y :: rest2)
      rw [List.cons_append]
      show (decide (x = a) && decide (y = b) || consecPair a b (y :: (rest2 ++ [m])))
        = (decide (x = a) && decide (y = b) || consecPair a b (y :: rest2))
      rw [← List.cons_append, ih]

/-- Claim C5: for every non-empty absolute base URL (bracket-free and
without surrounding whitespace), with or without a trailing slash,
`join_url(base, "a", "b")` succeeds and returns a URL whose path is
exactly the base's path without trailing slashes followed by `/a/b` —
so it ends in `/a/b` with no doubled slash — while the scheme, netloc,
query and fragment of the base are preserved unchanged. -/
theorem claim5_join_shape (base : String) (_hb : bracketFree base)
    (hstrip : pyStrip base.data = base.data)
    (hsch : (urlsplitS base).scheme ≠ []) (hnl : (urlsplitS base).netloc ≠ []) :
    ∃ u, join_urlS base ["a", "b"] = .ok u
      ∧ urlsplitS u = ⟨(urlsplitS base).scheme, (urlsplitS base).netloc,
          rstripSlash (urlsplitS base).path ++ ['/', 'a', '/', 'b'],
          (urlsplitS base).query, (urlsplitS base).fragment⟩ := by
  obtain ⟨h1, h2⟩ := join_url_split base ["a", "b"] hstrip hsch hnl
    (by decide) (by decide)
  refine ⟨_, h1, ?_⟩
  rw [h2]
  rfl

/-- Witness for claim C5: a base with a proxy path prefix and a
trailing slash. -/
theorem claim5_join_shape_witness :
    ∃ u, join_urlS "http://host/pre/" ["a", "b"] = .ok u
      ∧ urlsplitS u = ⟨(urlsplitS "http://host/pre/").scheme,
          (urlsplitS "http://host/pre/").netloc,
          rstripSlash (urlsplitS "http://host/pre/").path ++ ['/', 'a', '/', 'b'],
          (urlsplitS "http://host/pre/").query,
          (urlsplitS "http://host/pre/").fragment⟩ :=
  claim5_join_shape "http://host/pre/" (by constructor <;> decide) (by decide)
    (by decide) (by decide)

/-- Claim C3 counterexample: a base whose path is `/v1beta/v1beta`
already contains `v1beta` as a whole segment, so GEMINI_NATIVE appends
`models` directly — but the resulting URL still contains two
consecutive `v1beta` segments, contradicting the claim's "never".
The whole-segment half of the claim is accurate: a `v1betaX` segment
is not treated as `v1beta`, and `v1beta` is inserted. -/
theorem claim3_counterexample :
    has_v1beta "http://h/v1beta/v1beta" = true
    ∧ build_gemini_native_models_url "http://h/v1beta/v1beta"
        = .ok "http://h/v1beta/v1beta/models"
    ∧ consecPair "v1beta".data "v1beta".data
        (path_segments "http://h/v1beta/v1beta/models") = true
    ∧ has_v1beta "http://h/v1betaX" = false
    ∧ build_gemini_native_models_url "http://h/v1betaX"
        = .ok "http://h/v1betaX/v1beta/models" :=
  ⟨rfl, rfl, rfl, rfl, rfl⟩

/-- Claim C3 (amended): on an absolute base already containing a
`v1beta` segment (and not the `v1beta/openai` pair), the GEMINI_NATIVE
models URL appends `models` directly: its segments are exactly the
base's segments followed by `models`, so a consecutive `v1beta v1beta`
pair occurs in the result exactly when the base already had one. -/
theorem claim3_amended (base : String) (_hb : bracketFree base)
    (hstrip : pyStrip base.data = base.data)
    (hsch : (urlsplitS base).scheme ≠ []) (hnl : (urlsplitS base).netloc ≠ [])
    (hv : has_v1beta base = true) (hvo : has_v1beta_openai base = false) :
    ∃ u, build_gemini_native_models_url base = .ok u
      ∧ path_segments u = path_segments base ++ ["models".data]
      ∧ consecPair "v1beta".data "v1beta".data (path_segments u)
          = consecPair "v1beta".data "v1beta".data (path_segments base) := by
  obtain ⟨h1, h2⟩ := join_url_split base ["models"] hstrip hsch hnl
    (by decide) (by decide)
  have hseg : path_segments ⟨join_url_core base.data ["models"]⟩
      = path_segments base ++ ["models".data] := by
    rw [path_segments_eq_segsOf, h2]
    show segsOf (rstripSlash (urlsplitS base).path ++ ('/' :: "models".data)) = _
    rw [segsOf_append, segsOf_rstripSlash]
    rfl
  refine ⟨⟨join_url_core base.data ["models"]⟩, ?_, hseg, ?_⟩
  · unfold build_gemini_native_models_url
    rw [if_neg (by simp [hvo]), if_pos hv, h1]
    rfl
  · rw [hseg, consecPair_append_single _ _ _ (by decide)]

/-- Witness for the amended claim C3: a base with a single `v1beta`
segment. -/
theorem claim3_amended_witness :
    ∃ u, build_gemini_native_models_url "http://h/v1beta" = .ok u
      ∧ path_segments u = path_segments "http://h/v1beta" ++ ["models".data]
      ∧ consecPair "v1beta".data "v1beta".data (path_segments u)
          = consecPair "v1beta".data "v1beta".data (path_segments "http://h/v1beta") :=
  claim3_amended "http://h/v1beta" (by constructor <;> decide) (by decide)
    (by decide) (by decide) (by decide) (by decide)
